import Mathlib

/-!
Verification of the event normalization and aggregation pipeline of the
json-tools repository (aw_clean.py, aw_analyze.py, aw_filter.py).

The Python code manipulates JSON event records through four core passes
(deduplication by timestamp, merging of consecutive same-app events,
duration/app filtering, date-range filtering) and an aggregation step.
This file gives a shallow embedding of those functions and proves the
testable properties stated in the design document.

Modelling conventions, used throughout:

* A JSON event is a record with optional fields (a missing key is
  modelled as `none`).  JSON numbers (Python floats) are modelled as
  exact rationals `ℚ`; the concrete values exercised by the claims are
  decimally exact, where the two notions agree.
* Python `datetime` objects store whole microseconds.  A parsed
  timestamp is therefore modelled as an integer count of microseconds
  (`ParsedTS.instant`), which makes `datetime` subtraction and
  comparison exact integer arithmetic, as in CPython.
  `timedelta(seconds = f)` rounds a float to whole microseconds with
  ties to even; `microOfSeconds` mirrors that.
* Python's `sorted` is a stable sort on the decorated (key, value)
  pairs.  It is modelled by `List.insertionSort` over the relation
  `key a ≤ key b`, which inserts a new element before the first
  strictly-greater run and is extensionally the same stable sort.
* Fallible Python code (KeyError on a missing key, ValueError from
  `datetime.fromisoformat`, TypeError from comparing offset-naive and
  offset-aware datetimes) is modelled with `Option`: `none` means the
  invocation dies with an exception.
-/

/-! ### Rounding and exact rational helpers -/

/-- Round the fraction n / d (with d > 0) to the nearest integer, ties to
even; this is the rounding CPython applies when a float number of seconds
is converted to whole microseconds by `timedelta`. -/
def rheDiv (n : ℤ) (d : ℕ) : ℤ :=
  let q := Int.fdiv n d
  let r := n - q * d
  if 2 * r < d then q
  else if (d : ℤ) < 2 * r then q + 1
  else if q % 2 = 0 then q else q + 1

/-- Microseconds of a duration given in (rational) seconds, rounded as
Python's `timedelta(seconds = x)` rounds: to the nearest microsecond,
ties to even. -/
def microOfSeconds (x : ℚ) : ℤ := rheDiv (x.num * 1000000) x.den

/-- Exact number of seconds of an integer number of microseconds, as
produced by `timedelta.total_seconds()`; exact for every duration below
about 285 years, which covers the tool's domain. -/
def secondsOfMicro (μ : ℤ) : ℚ := mkRat μ 1000000

/-- Exact division of a rational by a positive integer constant.  Written
with `mkRat` instead of `Rat.div` so that concrete instances reduce inside
the kernel; for n ≠ 0 it agrees with x / n (see `qdivNat_eq_div`). -/
def qdivNat (x : ℚ) (n : ℕ) : ℚ := mkRat x.num (x.den * n)

/-! ### Calendar arithmetic

Python `datetime` validates calendar dates (month range, day-of-month
range, leap years) and orders/compares dates chronologically.  Dates are
mapped to an integer day number by the standard civil-from-days algorithm
(days counted from 0000-03-01), which is strictly monotone in the
chronological order, so date comparison becomes integer comparison. -/

/-- Gregorian leap-year rule, as implemented by Python's `calendar`. -/
def isLeap (y : ℕ) : Bool := y % 4 == 0 && (y % 100 != 0 || y % 400 == 0)

/-- Number of days of month m of year y (m between 1 and 12). -/
def daysInMonth (y m : ℕ) : ℕ :=
  if m = 2 then (if isLeap y then 29 else 28)
  else if m = 4 ∨ m = 6 ∨ m = 9 ∨ m = 11 then 30
  else 31

/-- Day number of the civil date y-m-d, counted from 0000-03-01 (valid
for y ≥ 1, which `datetime` guarantees: MINYEAR = 1). -/
def civilDays (y m d : ℕ) : ℤ :=
  let y2 := if m ≤ 2 then y - 1 else y
  let era := y2 / 400
  let yoe := y2 % 400
  let m2 := if 3 ≤ m then m - 3 else m + 9
  let doy := (153 * m2 + 2) / 5 + (d - 1)
  let doe := yoe * 365 + yoe / 4 - yoe / 100 + doy
  (era * 146097 + doe : ℤ)

/-! ### Timestamp parsing -/

/-- A parsed timestamp: a Python `datetime`.  `aware` records whether the
string carried a UTC offset (CPython refuses to compare or subtract
naive and aware datetimes); `instant` is the datetime as a count of
microseconds (offset already subtracted for aware datetimes; wall-clock
for naive ones); `dateOrd` is the day number of the calendar date as
encoded, used by `.date()`, which performs no timezone conversion. -/
structure ParsedTS where
  aware : Bool
  instant : ℤ
  dateOrd : ℤ
  deriving DecidableEq, Repr

/-- Numeric value of a decimal digit character. -/
def digitVal (c : Char) : Option ℕ :=
  if c.toNat < 48 ∨ 57 < c.toNat then none else some (c.toNat - 48)

/-- Two-digit decimal number. -/
def num2 (a b : Char) : Option ℕ := do
  let x ← digitVal a
  let y ← digitVal b
  pure (10 * x + y)

/-- Four-digit decimal number. -/
def num4 (a b c d : Char) : Option ℕ := do
  let x ← num2 a b
  let y ← num2 c d
  pure (100 * x + y)

/-- Split a leading run of decimal digits from a character list. -/
def takeDigits : List Char → (List ℕ × List Char)
  | [] => ([], [])
  | c :: cs =>
    match digitVal c with
    | some d => let p := takeDigits cs; (d :: p.1, p.2)
    | none => ([], c :: cs)

/-- Parse a trailing UTC offset, in microseconds.  Returns `some none`
for an absent offset (a naive datetime), `some (some μ)` for ±HH:MM, and
`none` when the tail is not a valid offset (a ValueError in Python).
Offsets must satisfy HH ≤ 23 and MM ≤ 59, as a `timezone` must lie
strictly between -24 and +24 hours. -/
def parseOffset : List Char → Option (Option ℤ)
  | [] => some none
  | '+' :: h1 :: h2 :: ':' :: m1 :: m2 :: [] => do
    let h ← num2 h1 h2
    let m ← num2 m1 m2
    if 23 < h ∨ 59 < m then none
    else pure (some ((h * 3600 + m * 60 : ℕ) * 1000000))
  | '-' :: h1 :: h2 :: ':' :: m1 :: m2 :: [] => do
    let h ← num2 h1 h2
    let m ← num2 m1 m2
    if 23 < h ∨ 59 < m then none
    else pure (some (-((h * 3600 + m * 60 : ℕ) * 1000000 : ℤ)))
  | _ => none

/-- Parse the time-of-day part HH[:MM[:SS[.f+]]] followed by an optional
offset; returns the wall-clock microseconds of day and the offset. -/
def parseTime : List Char → Option (ℤ × Option ℤ)
  | h1 :: h2 :: rest => do
    let h ← num2 h1 h2
    if 23 < h then none else
    match rest with
    | ':' :: m1 :: m2 :: rest2 => do
      let mi ← num2 m1 m2
      if 59 < mi then none else
      match rest2 with
      | ':' :: s1 :: s2 :: rest3 => do
        let s ← num2 s1 s2
        if 59 < s then none else
        match rest3 with
        | '.' :: rest4 =>
          let p := takeDigits rest4
          if p.1.length = 0 ∨ 6 < p.1.length then none else do
          let μf := (p.1.foldl (fun a d => 10 * a + d) 0) * 10 ^ (6 - p.1.length)
          let off ← parseOffset p.2
          pure (((h * 3600 + mi * 60 + s) * 1000000 + μf : ℕ), off)
        | _ => do
          let off ← parseOffset rest3
          pure (((h * 3600 + mi * 60 + s) * 1000000 : ℕ), off)
      | _ => do
        let off ← parseOffset rest2
        pure (((h * 3600 + mi * 60) * 1000000 : ℕ), off)
    | _ => do
      let off ← parseOffset rest
      pure ((h * 3600 * 1000000 : ℕ), off)
  | _ => none

/-- Model of `datetime.fromisoformat` on the profile these tools exchange:
`YYYY-MM-DD`, optionally followed by a single separator character, a
time-of-day `HH[:MM[:SS[.f+]]]`, and an optional offset `±HH:MM`.  The
calendar date is validated exactly as `datetime` validates it.  A bare
`Z` suffix is NOT accepted (the callers normalize it to `+00:00` first,
see `replaceZ`). -/
def parseISO (cs : List Char) : Option ParsedTS :=
  match cs with
  | y1 :: y2 :: y3 :: y4 :: '-' :: mo1 :: mo2 :: '-' :: d1 :: d2 :: rest => do
    let y ← num4 y1 y2 y3 y4
    let mo ← num2 mo1 mo2
    let d ← num2 d1 d2
    if y = 0 ∨ mo = 0 ∨ 12 < mo ∨ d = 0 ∨ daysInMonth y mo < d then none else
    let dayOrd := civilDays y mo d
    match rest with
    | [] => some ⟨false, dayOrd * 86400000000, dayOrd⟩
    | _ :: t => do
      let q ← parseTime t
      match q.2 with
      | none => some ⟨false, dayOrd * 86400000000 + q.1, dayOrd⟩
      | some o => some ⟨true, dayOrd * 86400000000 + q.1 - o, dayOrd⟩
  | _ => none

/-- The normalization `s.replace('Z', '+00:00')` performed by the clean
tool before parsing; since the pattern is a single character this is an
exact character-level model of Python's substring replace. -/
def replaceZ (s : String) : List Char :=
  (s.toList.map (fun c => if c = 'Z' then "+00:00".toList else [c])).flatten

/-- The instant parser used by the merge pass:
`datetime.fromisoformat(ts.replace('Z', '+00:00'))`. -/
def parseTS (s : String) : Option ParsedTS := parseISO (replaceZ s)

/-- Model of the third-party `dateutil.parser.parse(ts).date()` call used
by the date filter, restricted to the ISO-8601 timestamps these tools
exchange (dateutil accepts `Z` directly): the calendar date is the one
encoded in the string, with no timezone conversion. -/
def parseLenientDate (s : String) : Option ℤ :=
  (parseISO (replaceZ s)).map ParsedTS.dateOrd

/-! ### The event data model -/

/-- The open `data` mapping of an event, restricted to the keys the
pipeline reads.  A `none` field models an absent key. -/
structure EventData where
  app : Option String
  title : Option String
  url : Option String
  hostname : Option String
  deriving DecidableEq, Repr

/-- A JSON event record.  `none` models an absent key. -/
structure Event where
  timestamp : Option String
  duration : Option ℚ
  data : Option EventData
  device : Option String
  deriving DecidableEq, Repr

instance : Inhabited Event := ⟨⟨none, none, none, none⟩⟩

/-- Python `event.get('duration', 0)`. -/
def Event.dur (e : Event) : ℚ := e.duration.getD 0

/-- Python `event.get('data', {}).get('app')`. -/
def Event.app (e : Event) : Option String := e.data.bind EventData.app

/-- Python `event.get('data', {}).get('title', '')`. -/
def Event.title (e : Event) : String := (e.data.bind EventData.title).getD ""

/-- Python `event.get('data', {}).get('url')`. -/
def Event.url (e : Event) : Option String := e.data.bind EventData.url

/-- Sequential effectful map over a list in the `Option` monad: the
result is `none` as soon as one element fails.  This is how every Python
loop that may raise is modelled. -/
def omapM (f : α → Option β) : List α → Option (List β)
  | [] => some []
  | a :: as => do
    let b ← f a
    let bs ← omapM f as
    pure (b :: bs)

/-! ### aw_clean: deduplicate_simultaneous_events

Python groups events into a `defaultdict(list)` keyed by the exact
timestamp string; dict iteration order is the order in which keys were
first inserted.  The grouping dict is modelled as an association list
with in-place update, which has exactly that iteration order. -/

/-- Append event e to the group of key k, creating the group at the end
if the key is new (the insertion-order semantics of a Python dict). -/
def addToGroups (gs : List (String × List Event)) (k : String) (e : Event) :
    List (String × List Event) :=
  match gs with
  | [] => [(k, [e])]
  | (k2, g) :: rest =>
    if k2 = k then (k2, g ++ [e]) :: rest
    else (k2, g) :: addToGroups rest k e

/-- The grouping loop of `deduplicate_simultaneous_events`; an event
without a 'timestamp' key raises a KeyError, modelled by `none`. -/
def groupByTimestamp : List Event → List (String × List Event) →
    Option (List (String × List Event))
  | [], acc => some acc
  | e :: es, acc =>
    match e.timestamp with
    | none => none
    | some ts => groupByTimestamp es (addToGroups acc ts e)

/-- Python `max(group, key=lambda e: e.get('duration', 0))` keeps the
first element of maximal key, replacing only on a strictly greater key. -/
def maxByDuration : Event → List Event → Event
  | best, [] => best
  | best, e :: es => maxByDuration (if best.dur < e.dur then e else best) es

/-- Keep one event of a (nonempty) timestamp group: the single element,
or the first one of maximal duration. -/
def pickSurvivor : List Event → Option Event
  | [] => none
  | [e] => some e
  | e :: es => some (maxByDuration e es)

/-- Model of `deduplicate_simultaneous_events` (aw_clean.py lines 18-38):
group by exact timestamp string, then keep one event per group. -/
def deduplicate_simultaneous_events (events : List Event) : Option (List Event) := do
  let gs ← groupByTimestamp events []
  omapM (fun p => pickSurvivor p.2) gs

/-! ### aw_clean: merge_consecutive_events -/

/-- Parse an event's timestamp as the merge pass does:
`datetime.fromisoformat(e['timestamp'].replace('Z', '+00:00'))`.
A missing timestamp key (KeyError) or a malformed string (ValueError)
yields `none`. -/
def parseEvt (e : Event) : Option ParsedTS := e.timestamp.bind parseTS

/-- Decoration of an event with its parsed timestamp, as computed by the
sort key function of the merge pass. -/
def decorate (e : Event) : Option (Event × ParsedTS) :=
  (parseEvt e).map (fun p => (e, p))

/-- Sorting relation of the merge pass: keys (parsed timestamps) are
compared as instants.  Python's `sorted` is stable; `insertionSort` over
this reflexive relation inserts each element before the first strictly
greater one and is the same stable sort. -/
def tsLe (a b : Event × ParsedTS) : Prop := a.2.instant ≤ b.2.instant

instance : DecidableRel tsLe := fun _ _ => inferInstanceAs (Decidable (_ ≤ _))

instance : IsTotal (Event × ParsedTS) tsLe := ⟨fun _ _ => Int.le_total _ _⟩

instance : IsTrans (Event × ParsedTS) tsLe := ⟨fun _ _ _ h1 h2 => le_trans h1 h2⟩

/-- The accumulator walk of `merge_consecutive_events` (aw_clean.py lines
54-94).  `rest` carries each remaining event together with its parsed
timestamp (Python re-parses these strings inside the loop; the strings
come unchanged from the sort, so the values coincide).  The accumulator's
own timestamp is re-parsed at every iteration, exactly as the source
does.  Inside the merge branch, Python executes
`current['data']['title'] = next_title`, which raises a KeyError when the
accumulator has no 'data' key; that is the `none` case of the match. -/
def mergeLoop (current : Event) (rest : List (Event × ParsedTS))
    (acc : List Event) (g : ℤ) : Option (List Event) :=
  match rest with
  | [] => some (acc ++ [current])
  | (nextE, nextTS) :: rest2 => do
    let curTS ← parseEvt current
    let currentEnd := curTS.instant + microOfSeconds current.dur
    let gap := nextTS.instant - currentEnd
    if current.app = nextE.app ∧ 0 ≤ gap ∧ gap ≤ g * 1000000 then
      let nextEnd := nextTS.instant + microOfSeconds nextE.dur
      let c1 : Event := { current with duration := some (secondsOfMicro (nextEnd - curTS.instant)) }
      if current.title.length < nextE.title.length then
        match current.data with
        | some d => mergeLoop { c1 with data := some { d with title := some nextE.title } } rest2 acc g
        | none => none
      else mergeLoop c1 rest2 acc g
    else mergeLoop nextE rest2 (acc ++ [current]) g

/-- Model of `merge_consecutive_events` (aw_clean.py lines 41-95).  The
sort key `datetime.fromisoformat(e['timestamp'].replace('Z','+00:00'))`
is computed for every event up front (so a missing or malformed
timestamp anywhere is fatal), then the events are stably sorted by that
key.  CPython raises a TypeError as soon as a naive and an aware
datetime are compared, and sorting a list holding both kinds necessarily
compares two of different kinds, so a mixed list is fatal as well. -/
def merge_consecutive_events (events : List Event) (max_gap_seconds : ℤ) :
    Option (List Event) :=
  if events.isEmpty then some [] else do
    let dec ← omapM decorate events
    match dec with
    | [] => some []
    | d0 :: _ =>
      if dec.all (fun x => x.2.aware == d0.2.aware) then
        match List.insertionSort tsLe dec with
        | [] => some []
        | (c, _) :: rest => mergeLoop c rest [] max_gap_seconds
      else none

/-! ### aw_clean: filter_events -/

/-- Default excluded system apps (aw_clean.py lines 107-110). -/
def defaultExcludeApps : List String :=
  ["UserNotificationCenter", "loginwindow", "CoreServicesUIAgent"]

/-- Zero-duration pass: `[e for e in filtered if e.get('duration', 0) > 0]`. -/
def removeZeroPass (events : List Event) : List Event :=
  events.filter (fun e => decide (0 < e.dur))

/-- Minimum-duration pass:
`[e for e in filtered if e.get('duration', 0) >= min_duration_seconds]`. -/
def minDurationPass (m : ℤ) (events : List Event) : List Event :=
  events.filter (fun e => decide ((m : ℚ) ≤ e.dur))

/-- App-exclusion pass:
`[e for e in filtered if e.get('data', {}).get('app') not in exclude_apps]`. -/
def excludeAppsPass (excl : List String) (events : List Event) : List Event :=
  events.filter (fun e => decide (e.app ∉ excl.map some))

/-- Model of `filter_events` (aw_clean.py lines 98-136); `none` for the
`exclude_apps` argument models the Python default `None`, replaced by the
system-app list.  The pass order is fixed: zero-duration, minimum
duration, app exclusion, deduplication, merge. -/
def filter_events (events : List Event) (min_duration_seconds : ℤ)
    (exclude_apps : Option (List String)) (remove_zero_duration : Bool)
    (deduplicate_simultaneous : Bool) (merge_consecutive : Bool)
    (max_gap_seconds : ℤ) : Option (List Event) :=
  let excl := exclude_apps.getD defaultExcludeApps
  let f1 := if remove_zero_duration then removeZeroPass events else events
  let f2 := if 0 < min_duration_seconds then minDurationPass min_duration_seconds f1 else f1
  let f3 := if excl.isEmpty then f2 else excludeAppsPass excl f2
  do
    let f4 ← if deduplicate_simultaneous then deduplicate_simultaneous_events f3 else pure f3
    if merge_consecutive then merge_consecutive_events f4 max_gap_seconds else pure f4

/-! ### aw_filter: date-range filtering -/

/-- Model of `is_within_date_range` (aw_filter.py lines 34-42): parse the
timestamp with the lenient parser, take its calendar date as encoded and
test inclusion in the closed interval; a string the parser rejects
(ValueError, caught) makes the predicate false instead of failing.
Dates are represented by their day number. -/
def is_within_date_range (timestamp_str : String) (start_date end_date : ℤ) : Bool :=
  match parseLenientDate timestamp_str with
  | some d => decide (start_date ≤ d ∧ d ≤ end_date)
  | none => false

/-- Model of `filter_events_by_date` (aw_filter.py lines 45-53): keep
events that have a 'timestamp' key whose value the predicate accepts. -/
def filter_events_by_date (events : List Event) (start_date end_date : ℤ) :
    List Event :=
  events.filter (fun e =>
    match e.timestamp with
    | some ts => is_within_date_range ts start_date end_date
    | none => false)

/-! ### aw_analyze: duration formatting -/

/-- Decimal digits of a natural number (Nat.toDigits is fuel-based and
kernel-reducible). -/
def natStr (n : ℕ) : String := String.mk (Nat.toDigits 10 n)

/-- Left-pad a string with zeros to the given length. -/
def padZeros (w : ℕ) (s : String) : String :=
  String.mk (List.replicate (w - s.length) '0') ++ s

/-- Model of the Python fixed-point format specifier `.1f` / `.2f` applied
to the exact rational value: round to `prec` decimal places with ties to
even (CPython formats the nearest binary double the same way whenever the
value is exactly representable, which covers every value the claims
exercise). -/
def fmtFixed (prec : ℕ) (x : ℚ) : String :=
  let m := rheDiv (x.num * 10 ^ prec) x.den
  let sign := if x.num < 0 then "-" else ""
  let a := m.natAbs
  sign ++ natStr (a / 10 ^ prec) ++ "." ++ padZeros prec (natStr (a % 10 ^ prec))

/-- Model of `format_duration` (aw_analyze.py lines 17-26). -/
def format_duration (duration_seconds : ℚ) : String :=
  if duration_seconds < 60 then fmtFixed 1 duration_seconds ++ "s"
  else if duration_seconds < 3600 then fmtFixed 1 (qdivNat duration_seconds 60) ++ "m"
  else fmtFixed 2 (qdivNat duration_seconds 3600) ++ "h"

/-! ### aw_analyze: analyze_events -/

/-- An aggregation bucket: a running duration sum and event count. -/
structure UsageB where
  duration : ℚ
  events : ℕ
  deriving DecidableEq, Repr

/-- A URL bucket additionally retains the longest title seen. -/
structure UrlB where
  duration : ℚ
  events : ℕ
  title : String
  deriving DecidableEq, Repr

/-- The analysis record returned by `analyze_events`.  The four groupings
and the URL map are association lists in key-first-insertion order (the
iteration order of the Python defaultdicts); `date_range` is `none` for
the empty dict. -/
structure Analysis where
  total_events : ℕ
  total_duration : ℚ
  total_duration_formatted : String
  apps : List (String × UsageB)
  devices : List (String × UsageB)
  daily : List (String × UsageB)
  hourly : List (String × UsageB)
  urls : List (String × UrlB)
  date_range : Option (String × String)
  deriving DecidableEq, Repr

/-- Add one event's contribution to the bucket of key k, appending a new
bucket at the end when the key is new (defaultdict insertion order). -/
def bump (m : List (String × UsageB)) (k : String) (d : ℚ) :
    List (String × UsageB) :=
  match m with
  | [] => [(k, ⟨d, 1⟩)]
  | (k2, b) :: rest =>
    if k2 = k then (k2, ⟨b.duration + d, b.events + 1⟩) :: rest
    else (k2, b) :: bump rest k d

/-- Add one event's contribution to a URL bucket, keeping the longest
title (aw_analyze.py lines 83-92). -/
def urlBump (m : List (String × UrlB)) (k : String) (d : ℚ) (t : String) :
    List (String × UrlB) :=
  match m with
  | [] => [(k, ⟨d, 1, if 0 < t.length then t else ""⟩)]
  | (k2, b) :: rest =>
    if k2 = k then
      (k2, ⟨b.duration + d, b.events + 1,
            if b.title.length < t.length then t else b.title⟩) :: rest
    else (k2, b) :: urlBump rest k d t

/-- App grouping key: `event.get('data', {}).get('app', 'Unknown')`. -/
def appKey (e : Event) : String := e.app.getD "Unknown"

/-- Device grouping key:
`event.get('device', event.get('data', {}).get('hostname', 'Unknown'))`. -/
def deviceKey (e : Event) : String :=
  match e.device with
  | some d => d
  | none => ((e.data.bind EventData.hostname).getD "Unknown")

/-- Daily key: the first 10 characters of the timestamp string (a Python
slice, total even on short strings). -/
def dayKey (ts : String) : String := String.mk (ts.toList.take 10)

/-- Hourly key: characters 11 and 12 of the timestamp string. -/
def hourKey (ts : String) : String := String.mk ((ts.toList.drop 11).take 2)

/-- First minimum of a list of strings, as Python `min` on str. -/
def strMin (s : String) (l : List String) : String :=
  l.foldl (fun a b => if b < a then b else a) s

/-- First maximum of a list of strings, as Python `max` on str. -/
def strMax (s : String) (l : List String) : String :=
  l.foldl (fun a b => if a < b then b else a) s

/-- The URL accumulation loop: only events with a truthy (present,
nonempty) `data.url` contribute; the title default here is the literal
'Unknown Title'. -/
def urlFold (m : List (String × UrlB)) (e : Event) : List (String × UrlB) :=
  match e.url with
  | some u =>
    if u.length = 0 then m
    else urlBump m u e.dur ((e.data.bind EventData.title).getD "Unknown Title")
  | none => m

/-- Model of `analyze_events` (aw_analyze.py lines 29-114).  Empty input
short-circuits to the all-zero analysis.  Otherwise the daily and hourly
loops read `event['timestamp']` directly, so one event without a
timestamp key kills the whole call (KeyError), modelled by the `omapM`
guard; the app, device and URL groupings and the substring bucketing
never fail on present keys. -/
def analyze_events (events : List Event) : Option Analysis :=
  if events.isEmpty then some ⟨0, 0, format_duration 0, [], [], [], [], [], none⟩
  else do
    let tss ← omapM Event.timestamp events
    let total_duration := (events.map Event.dur).sum
    let apps := events.foldl (fun m e => bump m (appKey e) e.dur) []
    let devices := events.foldl (fun m e => bump m (deviceKey e) e.dur) []
    let daily := events.foldl (fun m e => bump m (dayKey (e.timestamp.getD "")) e.dur) []
    let hourly := events.foldl (fun m e => bump m (hourKey (e.timestamp.getD "")) e.dur) []
    let urls := events.foldl urlFold []
    let dr :=
      match tss with
      | [] => none
      | t :: ts => some (strMin t ts, strMax t ts)
    pure ⟨events.length, total_duration, format_duration total_duration,
          apps, devices, daily, hourly, urls, dr⟩

/-! ### Specification-side definitions

These two definitions are written from the wording of the design
document (section 4.2, passes 4 and 5), not from the Python source, to
be compared with the implementation models above. -/

/-- Specification wording of the merge walk: maintain a current
accumulator; for each subsequent event compute
`gap = next.start - (current.start + current.duration)`; merge when the
apps agree and 0 ≤ gap ≤ maxGapSeconds, extending the duration to
`(next.start + next.duration) - current.start` and replacing the title
exactly when the next title is strictly longer; otherwise emit the
accumulator and restart from the next event; emit the final accumulator.
Instants carry datetime (microsecond) resolution.  The specification
walk is total: replacing the title of an accumulator without a data
record creates one. -/
def mergeSpecWalk (cur : Event) (curTS : ParsedTS)
    (rest : List (Event × ParsedTS)) (g : ℤ) : List Event :=
  match rest with
  | [] => [cur]
  | (nextE, nextTS) :: rest2 =>
    let gap := nextTS.instant - (curTS.instant + microOfSeconds cur.dur)
    if cur.app = nextE.app ∧ 0 ≤ gap ∧ gap ≤ g * 1000000 then
      let newDur := secondsOfMicro (nextTS.instant + microOfSeconds nextE.dur - curTS.instant)
      let newData :=
        if cur.title.length < nextE.title.length then
          match cur.data with
          | some d => some { d with title := some nextE.title }
          | none => some ⟨none, some nextE.title, none, none⟩
        else cur.data
      mergeSpecWalk { cur with duration := some newDur, data := newData } curTS rest2 g
    else cur :: mergeSpecWalk nextE nextTS rest2 g

/-- Specification wording of the merge pass: parse every timestamp as an
instant (malformed timestamps are fatal), sort ascending by parsed
instant, then run the accumulator walk. -/
def mergeSpec (events : List Event) (g : ℤ) : Option (List Event) := do
  let dec ← omapM decorate events
  match List.insertionSort tsLe dec with
  | [] => some []
  | (c, p) :: rest => some (mergeSpecWalk c p rest g)

/-- One step of first-occurrence key collection: append the timestamp
if it is new. -/
def keyStep (ks : List String) (e : Event) : List String :=
  match e.timestamp with
  | some t => if t ∈ ks then ks else ks ++ [t]
  | none => ks

/-- Specification wording of the deduplication keys: the distinct
timestamp strings in order of first occurrence. -/
def firstKeys (events : List Event) : List String :=
  events.foldl keyStep []

/-- First event of maximal duration of a nonempty list, in input order. -/
def firstMaxIn (l : List Event) : Event :=
  match l with
  | [] => default
  | e :: es => maxByDuration e es

/-- Specification wording of the deduplication pass: for each distinct
timestamp in first-occurrence order, keep the first event of maximal
duration among the events carrying that timestamp. -/
def dedupeSpecList (events : List Event) : List Event :=
  (firstKeys events).map
    (fun k => firstMaxIn (events.filter (fun e => e.timestamp = some k)))

/-! ### A heap model of merge_consecutive_events

The pure model above gives the value-level behaviour.  The frame claim
about `merge_consecutive_events` concerns aliasing: `current = e.copy()`
copies only the top-level dict, so the copy's 'data' entry references
the SAME inner dict as the input event.  To state that, events and data
dicts live in explicit stores addressed by position, and the functions
thread the store.  Writing `current['duration'] = x` updates the event
object of the copy only; writing `current['data']['title'] = t` updates
the shared data object, visible through every alias. -/

/-- A top-level event dict: its 'data' entry is a reference into the
data-object store. -/
structure EventObj where
  timestamp : Option String
  duration : Option ℚ
  dataRef : Option ℕ
  device : Option String
  deriving DecidableEq, Repr

/-- The heap: the event-dict store and the data-dict store, addressed by
list position.  Allocation appends; mutation is `List.set`. -/
structure PyHeap where
  events : List EventObj
  datas : List EventData
  deriving DecidableEq, Repr

/-- Dereference a 'data' entry: `none` is a dangling reference (cannot
arise from well-formed input), `some none` an absent 'data' key. -/
def getData (h : PyHeap) (dr : Option ℕ) : Option (Option EventData) :=
  match dr with
  | none => some none
  | some i => (h.datas[i]?).map some

/-- The merge walk over the heap.  `curRef` addresses the accumulator
object (always a fresh copy); field reads go through the current heap,
so earlier title writes are visible, as in Python. -/
def mergeHLoop (h : PyHeap) (curRef : ℕ) (curTS : ParsedTS)
    (rest : List (ℕ × ParsedTS)) (acc : List ℕ) (g : ℤ) :
    Option (PyHeap × List ℕ) :=
  match rest with
  | [] => some (h, acc ++ [curRef])
  | (r, p) :: rest2 => do
    let cur ← h.events[curRef]?
    let nextE ← h.events[r]?
    let curD ← getData h cur.dataRef
    let nextD ← getData h nextE.dataRef
    let currentEnd := curTS.instant + microOfSeconds (cur.duration.getD 0)
    let gap := p.instant - currentEnd
    if curD.bind EventData.app = nextD.bind EventData.app ∧ 0 ≤ gap ∧ gap ≤ g * 1000000 then
      let nextEnd := p.instant + microOfSeconds (nextE.duration.getD 0)
      let newCur : EventObj := { cur with duration := some (secondsOfMicro (nextEnd - curTS.instant)) }
      let h1 : PyHeap := { h with events := h.events.set curRef newCur }
      let nextTitle := (nextD.bind EventData.title).getD ""
      let curTitle := (curD.bind EventData.title).getD ""
      if curTitle.length < nextTitle.length then
        match cur.dataRef, curD with
        | some di, some d =>
          mergeHLoop { h1 with datas := h1.datas.set di { d with title := some nextTitle } }
            curRef curTS rest2 acc g
        | _, _ => none
      else mergeHLoop h1 curRef curTS rest2 acc g
    else
      mergeHLoop { h with events := h.events ++ [nextE] } h.events.length p rest2
        (acc ++ [curRef]) g

/-- Heap-level model of `merge_consecutive_events`: takes references to
the input events, returns the final heap and references to the output
events (all of which are fresh top-level copies). -/
def merge_heap (h : PyHeap) (refs : List ℕ) (g : ℤ) :
    Option (PyHeap × List ℕ) :=
  if refs.isEmpty then some (h, []) else do
    let dec ← omapM (fun r => do
        let e ← h.events[r]?
        let s ← e.timestamp
        let p ← parseTS s
        pure (r, p)) refs
    match dec with
    | [] => some (h, [])
    | d0 :: _ =>
      if dec.all (fun x => x.2.aware == d0.2.aware) then
        match List.insertionSort (fun a b : ℕ × ParsedTS => a.2.instant ≤ b.2.instant) dec with
        | [] => some (h, [])
        | (r0, p0) :: rest => do
          let e0 ← h.events[r0]?
          mergeHLoop { h with events := h.events ++ [e0] } h.events.length p0 rest [] g
      else none

/-! ### Concrete inputs and proof-side definitions

Named constants used by the witnesses and counterexamples, and
auxiliary definitions (decorated walks, grouping views) that the
proofs below relate to the implementation models. -/

/-- The app-X event at 10:00:00 with duration 60 of spec example 2. -/
def evX1 : Event :=
  ⟨some "2025-06-01T10:00:00+00:00", some 60, some ⟨some "X", none, none, none⟩, none⟩

/-- The app-X event at 10:01:15 with duration 45 of spec example 2. -/
def evX2 : Event :=
  ⟨some "2025-06-01T10:01:15+00:00", some 45, some ⟨some "X", none, none, none⟩, none⟩

/-- The merged event of spec example 2: duration 120 (60 + 45 + the 15
second gap). -/
def evXMerged : Event :=
  ⟨some "2025-06-01T10:00:00+00:00", some 120, some ⟨some "X", none, none, none⟩, none⟩

/-- An app-X event at 10:00:30 with duration 45: its gap to evX1 is
30 - 60 = -30 seconds, a strict overlap. -/
def evXOverlap : Event :=
  ⟨some "2025-06-01T10:00:30+00:00", some 45, some ⟨some "X", none, none, none⟩, none⟩

/-- Duration-60 event of spec example 1 (dedupe). -/
def evD60 : Event := ⟨some "2025-06-01T10:00:00+00:00", some 60, none, none⟩

/-- Duration-120 event of spec example 1 (dedupe). -/
def evD120 : Event := ⟨some "2025-06-01T10:00:00+00:00", some 120, none, none⟩

/-- An event whose timestamp string parses in no supported format. -/
def evBadTs : Event := ⟨some "not-a-timestamp", some 5, none, none⟩

/-- An event with no 'timestamp' key at all. -/
def evNoTs : Event := ⟨none, some 5, none, none⟩

/-- A plain event on 2025-06-01 used by the date-filter witnesses. -/
def evJune1 : Event := ⟨some "2025-06-01T10:00:00+00:00", some 60, none, none⟩

/-- Day number of 2025-05-31. -/
def dMay31 : ℤ := civilDays 2025 5 31

/-- Day number of 2025-06-01. -/
def dJune1 : ℤ := civilDays 2025 6 1

/-- Day number of 2025-06-02. -/
def dJune2 : ℤ := civilDays 2025 6 2

/-- The malformed timestamp string used by the C4 counterexample. -/
def badTsStr : String := "not-a-timestamp"

/-- Keys of a grouping, in insertion order. -/
def gkeys (gs : List (String × List Event)) : List String := gs.map Prod.fst

/-- Group of a key (empty when absent). -/
def glookup : List (String × List Event) → String → List Event
  | [], _ => []
  | (k2, g) :: rest, k => if k2 = k then g else glookup rest k

/-- All grouped events, in group order. -/
def gmembers (gs : List (String × List Event)) : List Event :=
  (gs.map Prod.snd).flatten

/-- Parsed timestamp of evX1 (10:00:00 UTC). -/
def tsX1 : ParsedTS := ⟨true, 63910807200000000, 739708⟩

/-- Parsed timestamp of evXOverlap (10:00:30 UTC). -/
def tsXOverlap : ParsedTS := ⟨true, 63910807230000000, 739708⟩

/-- The emission condition of the merge walk, between two decorated
events: the pair does NOT satisfy the merge test (different apps, or a
gap outside the window).  Adjacent events of the merge output always
satisfy this, which is what makes a second merge pass the identity. -/
def noMergeStep (g : ℤ) (a b : Event × ParsedTS) : Prop :=
  ¬ (a.1.app = b.1.app ∧
      0 ≤ b.2.instant - (a.2.instant + microOfSeconds a.1.dur) ∧
      b.2.instant - (a.2.instant + microOfSeconds a.1.dur) ≤ g * 1000000)

/-- The merge walk carrying the parsed timestamp of the accumulator and
decorating the output; `mergeLoopD_fst` shows it projects to
`mergeLoop`.  The accumulator's timestamp string is never modified, so
its parsed value is constant between emissions. -/
def mergeLoopD (current : Event) (curTS : ParsedTS)
    (rest : List (Event × ParsedTS)) (g : ℤ) :
    Option (List (Event × ParsedTS)) :=
  match rest with
  | [] => some [(current, curTS)]
  | (nextE, nextTS) :: rest2 =>
    if current.app = nextE.app ∧
        0 ≤ nextTS.instant - (curTS.instant + microOfSeconds current.dur) ∧
        nextTS.instant - (curTS.instant + microOfSeconds current.dur) ≤ g * 1000000 then
      if current.title.length < nextE.title.length then
        match current.data with
        | some d =>
          mergeLoopD { current with
            duration := some (secondsOfMicro (nextTS.instant + microOfSeconds nextE.dur - curTS.instant)),
            data := some { d with title := some nextE.title } } curTS rest2 g
        | none => none
      else
        mergeLoopD { current with
          duration := some (secondsOfMicro (nextTS.instant + microOfSeconds nextE.dur - curTS.instant)) }
          curTS rest2 g
    else (mergeLoopD nextE nextTS rest2 g).map (fun l => (current, curTS) :: l)

/-- The concrete heap of the C9 aliasing scenario: two app-X events whose
'data' entries reference data objects 0 and 1; the second event carries
the longer title. -/
def heapC9 : PyHeap :=
  ⟨[⟨some ("2025-06-01T10:00:00+00:00"), some 60, some 0, none⟩,
    ⟨some ("2025-06-01T10:01:15+00:00"), some 45, some 1, none⟩],
   [⟨some ("X"), some ("t"), none, none⟩,
    ⟨some ("X"), some ("longer title"), none, none⟩]⟩

/-! ### Support lemmas about omapM -/

theorem omapM_nil (f : α → Option β) : omapM f [] = some [] := rfl

theorem omapM_cons (f : α → Option β) (a : α) (as : List α) :
    omapM f (a :: as) =
      (f a).bind (fun b => (omapM f as).bind (fun bs => some (b :: bs))) := rfl

theorem omapM_isSome (f : α → Option β) (l : List α)
    (h : ∀ a ∈ l, (f a).isSome) : (omapM f l).isSome := by
  induction l with
  | nil => simp [omapM]
  | cons a as ih =>
    have ha := h a (by simp)
    obtain ⟨b, hb⟩ := Option.isSome_iff_exists.mp ha
    have has : ∀ x ∈ as, (f x).isSome := fun x hx => h x (by simp [hx])
    obtain ⟨bs, hbs⟩ := Option.isSome_iff_exists.mp (ih has)
    simp [omapM, hb, hbs]

theorem omapM_eq_none (f : α → Option β) (l : List α) (a : α)
    (hmem : a ∈ l) (hf : f a = none) : omapM f l = none := by
  induction l with
  | nil => cases hmem
  | cons x xs ih =>
    rcases List.mem_cons.mp hmem with h | h
    · subst h; simp [omapM, hf]
    · cases hx : f x with
      | none => simp [omapM, hx]
      | some b => simp [omapM, hx, ih h]

theorem omapM_sound (f : α → Option β) (l : List α) (out : List β)
    (h : omapM f l = some out) :
    out.length = l.length ∧ ∀ i : ℕ, ∀ hi : i < l.length, ∀ ho : i < out.length,
      f (l.get ⟨i, hi⟩) = some (out.get ⟨i, ho⟩) := by
  induction l generalizing out with
  | nil =>
    simp [omapM] at h
    subst h
    exact ⟨rfl, fun i hi => by cases hi⟩
  | cons x xs ih =>
    cases hx : f x with
    | none => simp [omapM, hx] at h
    | some b =>
      cases hxs : omapM f xs with
      | none => simp [omapM, hx, hxs] at h
      | some bs =>
        simp [omapM, hx, hxs] at h
        subst h
        obtain ⟨hlen, hget⟩ := ih bs hxs
        refine ⟨by simp [hlen], ?_⟩
        intro i hi ho
        cases i with
        | zero => simpa using hx
        | succ j =>
          simp only [List.get_cons_succ]
          exact hget j (by simpa using hi) (by simpa using ho)

theorem decorate_sound (es : List Event) (l : List (Event × ParsedTS))
    (h : omapM decorate es = some l) :
    l.map Prod.fst = es ∧ ∀ x ∈ l, parseEvt x.1 = some x.2 := by
  induction es generalizing l with
  | nil =>
    simp [omapM] at h
    subst h
    simp
  | cons e es ih =>
    cases hp : parseEvt e with
    | none => simp [omapM, decorate, hp] at h
    | some p =>
      cases hrest : omapM decorate es with
      | none => simp [omapM, decorate, hp, hrest] at h
      | some l2 =>
        simp [omapM, decorate, hp, hrest] at h
        subst h
        obtain ⟨hmap, hall⟩ := ih l2 hrest
        constructor
        · simp [hmap]
        · intro x hx
          rcases List.mem_cons.mp hx with h | h
          · subst h; exact hp
          · exact hall x h

theorem decorate_complete (l : List (Event × ParsedTS))
    (h : ∀ x ∈ l, parseEvt x.1 = some x.2) :
    omapM decorate (l.map Prod.fst) = some l := by
  induction l with
  | nil => simp [omapM]
  | cons x xs ih =>
    have hx := h x (by simp)
    have hxs := ih (fun y hy => h y (by simp [hy]))
    simp [omapM, decorate, hx, hxs]

/-- Sanity check for the doc comment of `qdivNat`: it is ordinary
rational division by a nonzero natural number. -/
theorem qdivNat_eq_div (x : ℚ) (n : ℕ) (hn : n ≠ 0) : qdivNat x n = x / n := by
  have hden : (x.den : ℚ) ≠ 0 := by
    exact_mod_cast x.den_nz
  have hnq : (n : ℚ) ≠ 0 := by exact_mod_cast hn
  rw [qdivNat, Rat.mkRat_eq_div]
  push_cast
  rw [← div_div, Rat.num_div_den]

/-! ### C8: duration formatting -/

/-- C8: `format_duration` renders a duration x < 60 seconds with the
fixed-point format `.1f` and suffix `s`, a duration 60 ≤ x < 3600 as
x / 60 with format `.1f` and suffix `m`, and a duration x ≥ 3600 as
x / 3600 with format `.2f` and suffix `h`; at the boundary,
`format_duration 3599 = "60.0m"` (the `.1f` rounding of 59.983… carries
up to 60.0 while the unit stays minutes) and
`format_duration 3600 = "1.00h"`. -/
theorem format_duration_C8 :
    (∀ x : ℚ, x < 60 → format_duration x = fmtFixed 1 x ++ "s")
    ∧ (∀ x : ℚ, 60 ≤ x → x < 3600 → format_duration x = fmtFixed 1 (qdivNat x 60) ++ "m")
    ∧ (∀ x : ℚ, 3600 ≤ x → format_duration x = fmtFixed 2 (qdivNat x 3600) ++ "h")
    ∧ format_duration 3599 = "60.0m"
    ∧ format_duration 3600 = "1.00h" := by
  refine ⟨?_, ?_, ?_, ?_, ?_⟩
  · intro x hx
    simp [format_duration, hx]
  · intro x hx1 hx2
    simp [format_duration, not_lt.mpr hx1, hx2]
  · intro x hx
    have h60 : ¬ x < 60 := not_lt.mpr (le_trans (by norm_num) hx)
    have h3600 : ¬ x < 3600 := not_lt.mpr hx
    simp [format_duration, h60, h3600]
  · decide
  · decide

/-- Witness: the branch facts of C8 applied at concrete durations. -/
theorem format_duration_C8_witness :
    format_duration 30 = fmtFixed 1 30 ++ "s"
    ∧ format_duration 3599 = fmtFixed 1 (qdivNat 3599 60) ++ "m"
    ∧ format_duration 7200 = fmtFixed 2 (qdivNat 7200 3600) ++ "h" :=
  ⟨format_duration_C8.1 30 (by decide),
   format_duration_C8.2.1 3599 (by decide) (by decide),
   format_duration_C8.2.2.1 7200 (by decide)⟩

/-! ### C7: date-filter monotonicity -/

/-- C7: `filter_events_by_date` is monotone in the date interval: for
start2 ≤ start and end ≤ end2, every event kept by the closed interval
[start, end] is also kept by [start2, end2]. -/
theorem filter_by_date_monotone_C7 (events : List Event) (s e s2 e2 : ℤ)
    (ev : Event) (hs : s2 ≤ s) (he : e ≤ e2)
    (hmem : ev ∈ filter_events_by_date events s e) :
    ev ∈ filter_events_by_date events s2 e2 := by
  rw [filter_events_by_date, List.mem_filter] at hmem ⊢
  refine ⟨hmem.1, ?_⟩
  obtain ⟨h1, h2⟩ := hmem
  cases hts : ev.timestamp with
  | none => rw [hts] at h2; simp at h2
  | some ts =>
    rw [hts] at h2
    replace h2 : is_within_date_range ts s e = true := h2
    show is_within_date_range ts s2 e2 = true
    rw [is_within_date_range] at h2 ⊢
    cases hpd : parseLenientDate ts with
    | none => rw [hpd] at h2; simp at h2
    | some d =>
      rw [hpd] at h2
      replace h2 : decide (s ≤ d ∧ d ≤ e) = true := h2
      show decide (s2 ≤ d ∧ d ≤ e2) = true
      rw [decide_eq_true_eq] at h2 ⊢
      exact ⟨le_trans hs h2.1, le_trans h2.2 he⟩

/-- Witness: widening [2025-06-01, 2025-06-01] to
[2025-05-31, 2025-06-02] keeps the June 1 event. -/
theorem filter_by_date_monotone_C7_witness :
    evJune1 ∈ filter_events_by_date [evJune1] dMay31 dJune2 :=
  filter_by_date_monotone_C7 [evJune1] dJune1 dJune1 dMay31 dJune2 evJune1
    (by decide) (by decide) (by decide)

/-! ### C4: error-handling asymmetry -/

/-- C4 counterexample: the claim says a malformed timestamp encountered
during aggregation's day/hour substring bucketing is fatal for the whole
run; it is not.  The string of `evBadTs` parses as no instant (so the
merge pass does die on it), yet `analyze_events` processes the event
fine, because Python string slicing is total: the event is bucketed
under the junk day key. -/
theorem analyze_malformed_C4_cex :
    parseTS badTsStr = none
    ∧ evBadTs.timestamp = some badTsStr
    ∧ (analyze_events [evBadTs]).isSome = true
    ∧ merge_consecutive_events [evBadTs] 30 = none := by
  refine ⟨by decide, by decide, by decide, by decide⟩

/-- C4 (amended): an unparseable timestamp during date filtering makes
`is_within_date_range` false, so the event is excluded and the
surrounding events are still processed; a missing or malformed timestamp
during the merge pass's instant parsing is fatal for the run, and so is
a missing timestamp during aggregation; a malformed but present
timestamp during aggregation is NOT fatal — the event is bucketed by raw
substrings of the junk string. -/
theorem error_asymmetry_C4 :
    (∀ (ts : String) (s e : ℤ), parseLenientDate ts = none →
      is_within_date_range ts s e = false)
    ∧ (∀ (pre post : List Event) (s e : ℤ) (bad : Event) (ts : String),
        bad.timestamp = some ts → parseLenientDate ts = none →
        filter_events_by_date (pre ++ bad :: post) s e =
          filter_events_by_date pre s e ++ filter_events_by_date post s e)
    ∧ (∀ (events : List Event) (ev : Event) (g : ℤ), ev ∈ events →
        parseEvt ev = none → merge_consecutive_events events g = none)
    ∧ (∀ (events : List Event) (ev : Event), ev ∈ events →
        ev.timestamp = none → analyze_events events = none)
    ∧ (∀ events : List Event, (∀ ev ∈ events, ev.timestamp.isSome) →
        (analyze_events events).isSome = true) := by
  refine ⟨?_, ?_, ?_, ?_, ?_⟩
  · intro ts s e h
    rw [is_within_date_range, h]
  · intro pre post s e bad ts hts hparse
    have hbad : (fun ev : Event =>
        match ev.timestamp with
        | some ts => is_within_date_range ts s e
        | none => false) bad = false := by
      simp only [hts]
      rw [is_within_date_range, hparse]
    rw [filter_events_by_date, List.filter_append, List.filter_cons_of_neg (by simp [hbad])]
    rfl
  · intro events ev g hmem hparse
    have hdec : decorate ev = none := by rw [decorate, hparse]; rfl
    cases events with
    | nil => cases hmem
    | cons x xs =>
      have : omapM decorate (x :: xs) = none := omapM_eq_none decorate (x :: xs) ev hmem hdec
      simp [merge_consecutive_events, this]
  · intro events ev hmem hts
    cases events with
    | nil => cases hmem
    | cons x xs =>
      have : omapM Event.timestamp (x :: xs) = none :=
        omapM_eq_none Event.timestamp (x :: xs) ev hmem hts
      simp [analyze_events, this]
  · intro events hall
    cases events with
    | nil => decide
    | cons x xs =>
      have : (omapM Event.timestamp (x :: xs)).isSome :=
        omapM_isSome Event.timestamp (x :: xs) hall
      obtain ⟨tss, htss⟩ := Option.isSome_iff_exists.mp this
      cases tss with
      | nil => simp [analyze_events, htss]
      | cons t ts => simp [analyze_events, htss]

/-- Witness: the amended C4 facts at concrete inputs. -/
theorem error_asymmetry_C4_witness :
    is_within_date_range badTsStr dJune1 dJune2 = false
    ∧ filter_events_by_date ([] ++ evBadTs :: [evJune1]) dJune1 dJune2 =
        filter_events_by_date [] dJune1 dJune2 ++ filter_events_by_date [evJune1] dJune1 dJune2
    ∧ merge_consecutive_events [evBadTs] 30 = none
    ∧ analyze_events [evNoTs] = none
    ∧ (analyze_events [evJune1]).isSome = true :=
  ⟨error_asymmetry_C4.1 badTsStr dJune1 dJune2 (by decide),
   error_asymmetry_C4.2.1 [] [evJune1] dJune1 dJune2 evBadTs badTsStr (by decide) (by decide),
   error_asymmetry_C4.2.2.1 [evBadTs] evBadTs 30 (by decide) (by decide),
   error_asymmetry_C4.2.2.2.1 [evNoTs] evNoTs (by decide) (by decide),
   error_asymmetry_C4.2.2.2.2 [evJune1] (by decide)⟩

/-! ### Grouping lemmas (shared by C2, C6, C10) -/

theorem addToGroups_keys_mem (gs : List (String × List Event)) (k : String)
    (e : Event) (h : k ∈ gkeys gs) : gkeys (addToGroups gs k e) = gkeys gs := by
  induction gs with
  | nil => simp [gkeys] at h
  | cons p rest ih =>
    obtain ⟨k2, g⟩ := p
    by_cases hk : k2 = k
    · simp [addToGroups, hk, gkeys]
    · rcases List.mem_cons.mp h with h1 | h1
      · exact absurd h1.symm hk
      · simp only [addToGroups, if_neg hk, gkeys, List.map_cons]
        rw [show List.map Prod.fst (addToGroups rest k e) = gkeys (addToGroups rest k e) from rfl,
          ih h1]
        rfl

theorem addToGroups_keys_new (gs : List (String × List Event)) (k : String)
    (e : Event) (h : k ∉ gkeys gs) :
    gkeys (addToGroups gs k e) = gkeys gs ++ [k] := by
  induction gs with
  | nil => simp [addToGroups, gkeys]
  | cons p rest ih =>
    obtain ⟨k2, g⟩ := p
    have hk : k2 ≠ k := fun hh => h (by simp [gkeys, hh])
    have hrest : k ∉ gkeys rest := fun hh => h (by simp [gkeys] at hh ⊢; right; exact hh)
    simp only [addToGroups, if_neg hk, gkeys, List.map_cons]
    rw [show List.map Prod.fst (addToGroups rest k e) = gkeys (addToGroups rest k e) from rfl,
      ih hrest]
    rfl

theorem addToGroups_notmem (gs : List (String × List Event)) (k : String)
    (e : Event) (h : k ∉ gkeys gs) :
    addToGroups gs k e = gs ++ [(k, [e])] := by
  induction gs with
  | nil => simp [addToGroups]
  | cons p rest ih =>
    obtain ⟨k2, g⟩ := p
    have hk : k2 ≠ k := fun hh => h (by simp [gkeys, hh])
    have hrest : k ∉ gkeys rest := fun hh => h (by simp [gkeys] at hh ⊢; right; exact hh)
    simp [addToGroups, if_neg hk, ih hrest]

theorem addToGroups_glookup_same (gs : List (String × List Event)) (k : String)
    (e : Event) : glookup (addToGroups gs k e) k = glookup gs k ++ [e] := by
  induction gs with
  | nil => simp [addToGroups, glookup]
  | cons p rest ih =>
    obtain ⟨k2, g⟩ := p
    by_cases hk : k2 = k
    · simp [addToGroups, hk, glookup]
    · simp [addToGroups, hk, glookup, ih]

theorem gmembers_cons (p : String × List Event) (gs : List (String × List Event)) :
    gmembers (p :: gs) = p.2 ++ gmembers gs := rfl

theorem addToGroups_glookup_other (gs : List (String × List Event)) (k k2 : String)
    (e : Event) (h : k2 ≠ k) :
    glookup (addToGroups gs k e) k2 = glookup gs k2 := by
  induction gs with
  | nil => simp [addToGroups, glookup, Ne.symm h]
  | cons p rest ih =>
    obtain ⟨k3, g⟩ := p
    by_cases hk : k3 = k
    · by_cases hk2 : k3 = k2
      · exact absurd (hk2.symm.trans hk) h
      · simp [addToGroups, hk, glookup, hk2, Ne.symm h]
    · by_cases hk2 : k3 = k2
      · simp [addToGroups, hk, glookup, hk2, h]
      · simp [addToGroups, hk, glookup, hk2, ih]

theorem addToGroups_mem (gs : List (String × List Event)) (k : String)
    (e x : Event) : x ∈ gmembers (addToGroups gs k e) → x ∈ gmembers gs ∨ x = e := by
  induction gs with
  | nil =>
    intro h
    rw [show addToGroups [] k e = [(k, [e])] from rfl, gmembers_cons] at h
    simp [gmembers] at h
    exact Or.inr h
  | cons p rest ih =>
    obtain ⟨k2, g⟩ := p
    intro h
    by_cases hk : k2 = k
    · rw [show addToGroups ((k2, g) :: rest) k e =
          (k2, g ++ [e]) :: rest from by simp [addToGroups, hk], gmembers_cons] at h
      rw [gmembers_cons]
      rcases List.mem_append.mp h with h1 | h1
      · rcases List.mem_append.mp h1 with h2 | h2
        · exact Or.inl (List.mem_append.mpr (Or.inl h2))
        · simp at h2
          exact Or.inr h2
      · exact Or.inl (List.mem_append.mpr (Or.inr h1))
    · rw [show addToGroups ((k2, g) :: rest) k e =
          (k2, g) :: addToGroups rest k e from by simp [addToGroups, hk], gmembers_cons] at h
      rw [gmembers_cons]
      rcases List.mem_append.mp h with h1 | h1
      · exact Or.inl (List.mem_append.mpr (Or.inl h1))
      · rcases ih h1 with h2 | h2
        · exact Or.inl (List.mem_append.mpr (Or.inr h2))
        · exact Or.inr h2

theorem addToGroups_length (gs : List (String × List Event)) (k : String)
    (e : Event) : (addToGroups gs k e).length ≤ gs.length + 1 := by
  induction gs with
  | nil => simp [addToGroups]
  | cons p rest ih =>
    obtain ⟨k2, g⟩ := p
    by_cases hk : k2 = k
    · simp [addToGroups, hk]
    · simp only [addToGroups, if_neg hk, List.length_cons]
      omega

theorem addToGroups_group_ts (gs : List (String × List Event)) (k : String)
    (e : Event) (he : e.timestamp = some k)
    (h : ∀ p ∈ gs, p.2 ≠ [] ∧ ∀ x ∈ p.2, x.timestamp = some p.1) :
    ∀ p ∈ addToGroups gs k e, p.2 ≠ [] ∧ ∀ x ∈ p.2, x.timestamp = some p.1 := by
  induction gs with
  | nil =>
    intro p hp
    simp [addToGroups] at hp
    subst hp
    exact ⟨by simp, fun x hx => by simp at hx; subst hx; exact he⟩
  | cons q rest ih =>
    obtain ⟨k2, g⟩ := q
    by_cases hk : k2 = k
    · subst hk
      intro p hp
      simp only [addToGroups, if_pos rfl] at hp
      rcases List.mem_cons.mp hp with h1 | h1
      · subst h1
        refine ⟨by simp, fun x hx => ?_⟩
        rcases List.mem_append.mp hx with h2 | h2
        · exact (h (k2, g) (by simp)).2 x h2
        · simp at h2; subst h2; exact he
      · exact h p (by simp [h1])
    · intro p hp
      simp only [addToGroups, if_neg hk] at hp
      rcases List.mem_cons.mp hp with h1 | h1
      · subst h1
        exact h (k2, g) (by simp)
      · exact ih (fun q hq => h q (by simp [hq])) p h1

theorem groupBy_isSome (es : List Event) (acc : List (String × List Event))
    (h : ∀ e ∈ es, e.timestamp.isSome) : (groupByTimestamp es acc).isSome := by
  induction es generalizing acc with
  | nil => simp [groupByTimestamp]
  | cons e es ih =>
    obtain ⟨t, ht⟩ := Option.isSome_iff_exists.mp (h e (by simp))
    rw [groupByTimestamp, ht]
    exact ih (addToGroups acc t e) (fun x hx => h x (by simp [hx]))

theorem groupBy_keys (es : List Event) (acc : List (String × List Event))
    (gs : List (String × List Event)) (h : groupByTimestamp es acc = some gs) :
    gkeys gs = es.foldl keyStep (gkeys acc) := by
  induction es generalizing acc with
  | nil =>
    simp [groupByTimestamp] at h
    subst h
    rfl
  | cons e es ih =>
    cases ht : e.timestamp with
    | none => rw [groupByTimestamp, ht] at h; cases h
    | some t =>
      rw [groupByTimestamp, ht] at h
      rw [List.foldl_cons]
      have hstep : keyStep (gkeys acc) e = gkeys (addToGroups acc t e) := by
        simp only [keyStep, ht]
        by_cases hmem : t ∈ gkeys acc
        · rw [if_pos hmem, addToGroups_keys_mem acc t e hmem]
        · rw [if_neg hmem, addToGroups_keys_new acc t e hmem]
      rw [hstep]
      exact ih (addToGroups acc t e) h

theorem groupBy_glookup (es : List Event) (acc : List (String × List Event))
    (gs : List (String × List Event)) (h : groupByTimestamp es acc = some gs)
    (k : String) :
    glookup gs k = glookup acc k ++ es.filter (fun e => e.timestamp = some k) := by
  induction es generalizing acc with
  | nil =>
    simp [groupByTimestamp] at h
    subst h
    simp
  | cons e es ih =>
    cases ht : e.timestamp with
    | none => rw [groupByTimestamp, ht] at h; cases h
    | some t =>
      rw [groupByTimestamp, ht] at h
      rw [ih (addToGroups acc t e) h]
      by_cases hk : t = k
      · subst hk
        rw [addToGroups_glookup_same, List.filter_cons_of_pos (by simp [ht])]
        simp
      · rw [addToGroups_glookup_other acc t k e (Ne.symm hk),
          List.filter_cons_of_neg (by simp [ht, hk])]

theorem groupBy_nodup (es : List Event) (acc : List (String × List Event))
    (gs : List (String × List Event)) (h : groupByTimestamp es acc = some gs)
    (hacc : (gkeys acc).Nodup) : (gkeys gs).Nodup := by
  induction es generalizing acc with
  | nil =>
    simp [groupByTimestamp] at h
    subst h
    exact hacc
  | cons e es ih =>
    cases ht : e.timestamp with
    | none => rw [groupByTimestamp, ht] at h; cases h
    | some t =>
      rw [groupByTimestamp, ht] at h
      refine ih (addToGroups acc t e) h ?_
      by_cases hmem : t ∈ gkeys acc
      · rw [addToGroups_keys_mem acc t e hmem]; exact hacc
      · rw [addToGroups_keys_new acc t e hmem]
        simp [List.nodup_append, hacc, hmem]

theorem groupBy_group_ts (es : List Event) (acc : List (String × List Event))
    (gs : List (String × List Event)) (h : groupByTimestamp es acc = some gs)
    (hacc : ∀ p ∈ acc, p.2 ≠ [] ∧ ∀ x ∈ p.2, x.timestamp = some p.1) :
    ∀ p ∈ gs, p.2 ≠ [] ∧ ∀ x ∈ p.2, x.timestamp = some p.1 := by
  induction es generalizing acc with
  | nil =>
    simp [groupByTimestamp] at h
    subst h
    exact hacc
  | cons e es ih =>
    cases ht : e.timestamp with
    | none => rw [groupByTimestamp, ht] at h; cases h
    | some t =>
      rw [groupByTimestamp, ht] at h
      exact ih (addToGroups acc t e) h (addToGroups_group_ts acc t e ht hacc)

theorem groupBy_members (es : List Event) (acc : List (String × List Event))
    (gs : List (String × List Event)) (h : groupByTimestamp es acc = some gs)
    (x : Event) (hx : x ∈ gmembers gs) : x ∈ gmembers acc ∨ x ∈ es := by
  induction es generalizing acc with
  | nil =>
    simp [groupByTimestamp] at h
    subst h
    exact Or.inl hx
  | cons e es ih =>
    cases ht : e.timestamp with
    | none => rw [groupByTimestamp, ht] at h; cases h
    | some t =>
      rw [groupByTimestamp, ht] at h
      rcases ih (addToGroups acc t e) h with h1 | h1
      · rcases addToGroups_mem acc t e x h1 with h2 | h2
        · exact Or.inl h2
        · exact Or.inr (by simp [h2])
      · exact Or.inr (by simp [h1])

theorem groupBy_length (es : List Event) (acc : List (String × List Event))
    (gs : List (String × List Event)) (h : groupByTimestamp es acc = some gs) :
    gs.length ≤ acc.length + es.length := by
  induction es generalizing acc with
  | nil =>
    simp [groupByTimestamp] at h
    subst h
    simp
  | cons e es ih =>
    cases ht : e.timestamp with
    | none => rw [groupByTimestamp, ht] at h; cases h
    | some t =>
      rw [groupByTimestamp, ht] at h
      have h1 := ih (addToGroups acc t e) h
      have h2 := addToGroups_length acc t e
      simp only [List.length_cons]
      omega

theorem groupBy_fresh (es : List Event) (acc : List (String × List Event))
    (hpres : ∀ e ∈ es, e.timestamp.isSome)
    (hfresh : ∀ e ∈ es, e.timestamp.getD "" ∉ gkeys acc)
    (hnodup : (es.map (fun e => e.timestamp.getD "")).Nodup) :
    groupByTimestamp es acc =
      some (acc ++ es.map (fun e => (e.timestamp.getD "", [e]))) := by
  induction es generalizing acc with
  | nil => simp [groupByTimestamp]
  | cons e es ih =>
    obtain ⟨t, ht⟩ := Option.isSome_iff_exists.mp (hpres e (by simp))
    simp only [groupByTimestamp, ht]
    have hfr : t ∉ gkeys acc := by
      have := hfresh e (by simp)
      rwa [ht] at this
    rw [addToGroups_notmem acc t e hfr]
    have hres := ih (acc ++ [(t, [e])])
      (fun x hx => hpres x (by simp [hx]))
      (fun x hx => by
        have h1 : x.timestamp.getD "" ∉ gkeys acc := hfresh x (by simp [hx])
        have h2 : x.timestamp.getD "" ≠ t := by
          rw [List.map_cons, List.nodup_cons] at hnodup
          intro hc
          apply hnodup.1
          rw [ht]
          simp only [Option.getD_some]
          rw [← hc]
          exact List.mem_map_of_mem _ hx
        intro hc
        rw [gkeys, List.map_append] at hc
        rcases List.mem_append.mp hc with h3 | h3
        · exact h1 h3
        · simp at h3
          exact h2 h3)
      (by rw [List.map_cons, List.nodup_cons] at hnodup; exact hnodup.2)
    rw [hres]
    simp [ht]

theorem maxByDuration_mem (b : Event) (l : List Event) :
    maxByDuration b l ∈ b :: l := by
  induction l generalizing b with
  | nil => simp [maxByDuration]
  | cons e es ih =>
    rw [maxByDuration]
    by_cases h : b.dur < e.dur
    · rw [if_pos h]
      rcases List.mem_cons.mp (ih e) with h1 | h1
      · simp [h1]
      · simp [h1]
    · rw [if_neg h]
      rcases List.mem_cons.mp (ih b) with h1 | h1
      · simp [h1]
      · simp [h1]

theorem pickSurvivor_eq (l : List Event) (h : l ≠ []) :
    pickSurvivor l = some (firstMaxIn l) := by
  match l with
  | [] => exact absurd rfl h
  | [e] => rfl
  | e :: e2 :: es => rfl

theorem pickSurvivor_mem (l : List Event) (x : Event)
    (h : pickSurvivor l = some x) : x ∈ l := by
  match l with
  | [] => cases h
  | [e] =>
    simp [pickSurvivor] at h
    simp [h]
  | e :: e2 :: es =>
    simp only [pickSurvivor, Option.some_inj] at h
    subst h
    exact maxByDuration_mem e (e2 :: es)

theorem omapM_pick (gs : List (String × List Event))
    (h : ∀ p ∈ gs, p.2 ≠ []) :
    omapM (fun p => pickSurvivor p.2) gs =
      some (gs.map (fun p => firstMaxIn p.2)) := by
  induction gs with
  | nil => simp [omapM]
  | cons p rest ih =>
    rw [omapM, pickSurvivor_eq p.2 (h p (by simp)), ih (fun q hq => h q (by simp [hq]))]
    rfl

theorem omapM_mem_exists (f : α → Option β) (l : List α) (out : List β)
    (h : omapM f l = some out) (y : β) (hy : y ∈ out) :
    ∃ x ∈ l, f x = some y := by
  induction l generalizing out with
  | nil =>
    simp [omapM] at h
    subst h
    cases hy
  | cons a as ih =>
    cases ha : f a with
    | none => rw [omapM, ha] at h; cases h
    | some b =>
      cases has : omapM f as with
      | none => rw [omapM, ha, has] at h; cases h
      | some bs =>
        rw [omapM, ha, has] at h
        simp at h
        subst h
        rcases List.mem_cons.mp hy with h1 | h1
        · exact ⟨a, by simp, by rw [ha, h1]⟩
        · obtain ⟨x, hx1, hx2⟩ := ih bs has h1
          exact ⟨x, by simp [hx1], hx2⟩

theorem glookup_self (gs : List (String × List Event))
    (hnodup : (gkeys gs).Nodup) : ∀ p ∈ gs, glookup gs p.1 = p.2 := by
  induction gs with
  | nil => intro p hp; cases hp
  | cons q rest ih =>
    obtain ⟨k, g⟩ := q
    intro p hp
    rcases List.mem_cons.mp hp with h1 | h1
    · subst h1
      simp [glookup]
    · have hne : k ≠ p.1 := by
        rw [gkeys, List.map_cons, List.nodup_cons] at hnodup
        intro hc
        have hmem : p.1 ∈ List.map Prod.fst rest := List.mem_map_of_mem Prod.fst h1
        exact hnodup.1 (by rw [hc]; exact hmem)
      rw [glookup, if_neg (fun hc => hne hc)]
      exact ih (by rw [gkeys, List.map_cons, List.nodup_cons] at hnodup; exact hnodup.2) p h1

/-! ### C2: deduplication keeps the first longest event per timestamp -/

/-- C2: for event lists in which every record carries a 'timestamp' key,
`deduplicate_simultaneous_events` returns, for each distinct timestamp
string in order of first occurrence, the first event in input order
whose duration (absent read as 0) is maximal among the events with that
timestamp: groups of size one pass through unchanged, and exactly one
event survives per group.  In particular, of two events with the same
timestamp and durations 60 and 120, only the duration-120 event
survives. -/
theorem dedupe_C2 :
    (∀ events : List Event, (∀ e ∈ events, e.timestamp.isSome) →
      deduplicate_simultaneous_events events = some (dedupeSpecList events))
    ∧ deduplicate_simultaneous_events [evD60, evD120] = some [evD120] := by
  constructor
  · intro events h
    obtain ⟨gs, hgs⟩ := Option.isSome_iff_exists.mp (groupBy_isSome events [] h)
    have hts := groupBy_group_ts events [] gs hgs (by intro p hp; cases hp)
    have hnonempty : ∀ p ∈ gs, p.2 ≠ [] := fun p hp => (hts p hp).1
    have hnodup : (gkeys gs).Nodup := groupBy_nodup events [] gs hgs (by simp [gkeys])
    rw [deduplicate_simultaneous_events]
    rw [hgs]
    show omapM (fun p => pickSurvivor p.2) gs = some (dedupeSpecList events)
    rw [omapM_pick gs hnonempty]
    congr 1
    have hstep1 : gs.map (fun p => firstMaxIn p.2) =
        gs.map (fun p => firstMaxIn (events.filter (fun e => e.timestamp = some p.1))) := by
      refine List.map_congr_left ?_
      intro p hp
      rw [← glookup_self gs hnodup p hp, groupBy_glookup events [] gs hgs p.1]
      rfl
    rw [hstep1, dedupeSpecList]
    have hkeys : gkeys gs = firstKeys events := groupBy_keys events [] gs hgs
    rw [← hkeys, gkeys, List.map_map]
    rfl
  · decide

/-- Witness: C2 applied to the two-event example with durations 60 and
120 on the same timestamp. -/
theorem dedupe_C2_witness :
    deduplicate_simultaneous_events [evD60, evD120] =
      some (dedupeSpecList [evD60, evD120]) :=
  dedupe_C2.1 [evD60, evD120] (by decide)

theorem omapM_pick_singletons (l : List Event) :
    omapM (fun p => pickSurvivor p.2) (l.map (fun e => (e.timestamp.getD "", [e]))) =
      some l := by
  induction l with
  | nil => simp [omapM]
  | cons e es ih =>
    rw [List.map_cons, omapM_cons, ih]
    rfl

/-! ### C6: deduplication is idempotent -/

/-- C6: applying `deduplicate_simultaneous_events` to its own output
returns that output unchanged (same events, same order): after one pass
every surviving event carries a distinct timestamp, so regrouping yields
only singleton groups, which pass through. -/
theorem dedupe_idem_C6 (events out : List Event)
    (h : deduplicate_simultaneous_events events = some out) :
    deduplicate_simultaneous_events out = some out := by
  rw [deduplicate_simultaneous_events] at h
  cases hgs : groupByTimestamp events [] with
  | none => rw [hgs] at h; cases h
  | some gs =>
    rw [hgs] at h
    replace h : omapM (fun p => pickSurvivor p.2) gs = some out := h
    have hts := groupBy_group_ts events [] gs hgs (by intro p hp; cases hp)
    have hnodup : (gkeys gs).Nodup := groupBy_nodup events [] gs hgs (by simp [gkeys])
    obtain ⟨hlen, hget⟩ := omapM_sound _ gs out h
    have hmap : out.map (fun e => e.timestamp.getD "") = gkeys gs := by
      apply List.ext_get (by simp [hlen, gkeys])
      intro i h1 h2
      have hi : i < gs.length := by simpa [gkeys] using h2
      have ho : i < out.length := by simpa using h1
      have hp := hget i hi ho
      have hmem := pickSurvivor_mem _ _ hp
      have hts2 := (hts (gs.get ⟨i, hi⟩) (List.get_mem gs i hi)).2 _ hmem
      simp only [List.get_eq_getElem, List.getElem_map, gkeys]
      rw [show out[i] = out.get ⟨i, ho⟩ from rfl, hts2]
      rfl
    have hpres : ∀ e ∈ out, e.timestamp.isSome := by
      intro e he
      obtain ⟨p, hp, hpe⟩ := omapM_mem_exists _ gs out h e he
      have hmem := pickSurvivor_mem _ _ hpe
      rw [(hts p hp).2 e hmem]
      rfl
    have hnodup2 : (out.map (fun e => e.timestamp.getD "")).Nodup := by
      rw [hmap]; exact hnodup
    rw [deduplicate_simultaneous_events,
      groupBy_fresh out [] hpres (by simp [gkeys]) hnodup2]
    show omapM (fun p => pickSurvivor p.2)
      (([] : List (String × List Event)) ++ out.map (fun e => (e.timestamp.getD "", [e]))) = some out
    rw [List.nil_append]
    exact omapM_pick_singletons out

/-- Witness: idempotence at the two-event example; the first pass keeps
the duration-120 event, and re-running keeps it unchanged. -/
theorem dedupe_idem_C6_witness :
    deduplicate_simultaneous_events [evD120] = some [evD120] :=
  dedupe_idem_C6 [evD60, evD120] [evD120] (by decide)

/-! ### C10: the passes before merging return input records unchanged -/

theorem mem_gmembers (gs : List (String × List Event)) (p : String × List Event)
    (hp : p ∈ gs) (x : Event) (hx : x ∈ p.2) : x ∈ gmembers gs := by
  induction gs with
  | nil => cases hp
  | cons q rest ih =>
    rw [gmembers_cons]
    rcases List.mem_cons.mp hp with h1 | h1
    · subst h1
      exact List.mem_append.mpr (Or.inl hx)
    · exact List.mem_append.mpr (Or.inr (ih h1))

/-- C10: every event returned by the deduplication pass or by the
zero-duration, minimum-duration and app-exclusion passes of
`filter_events` is an unmodified record of the input list, each pass
returns at most as many events as it received, and the deduplication
output carries at most one event per distinct timestamp string. -/
theorem passes_preserve_C10 :
    (∀ (events out : List Event), deduplicate_simultaneous_events events = some out →
      (∀ e ∈ out, e ∈ events) ∧ out.length ≤ events.length ∧
        (out.map Event.timestamp).Nodup)
    ∧ (∀ events : List Event, (∀ e ∈ removeZeroPass events, e ∈ events) ∧
        (removeZeroPass events).length ≤ events.length)
    ∧ (∀ (m : ℤ) (events : List Event), (∀ e ∈ minDurationPass m events, e ∈ events) ∧
        (minDurationPass m events).length ≤ events.length)
    ∧ (∀ (excl : List String) (events : List Event),
        (∀ e ∈ excludeAppsPass excl events, e ∈ events) ∧
        (excludeAppsPass excl events).length ≤ events.length) := by
  refine ⟨?_, ?_, ?_, ?_⟩
  · intro events out h
    rw [deduplicate_simultaneous_events] at h
    cases hgs : groupByTimestamp events [] with
    | none => rw [hgs] at h; cases h
    | some gs =>
      rw [hgs] at h
      replace h : omapM (fun p => pickSurvivor p.2) gs = some out := h
      have hts := groupBy_group_ts events [] gs hgs (by intro p hp; cases hp)
      have hnodup : (gkeys gs).Nodup := groupBy_nodup events [] gs hgs (by simp [gkeys])
      obtain ⟨hlen, hget⟩ := omapM_sound _ gs out h
      refine ⟨?_, ?_, ?_⟩
      · intro e he
        obtain ⟨p, hp, hpe⟩ := omapM_mem_exists _ gs out h e he
        have hmem := pickSurvivor_mem _ _ hpe
        rcases groupBy_members events [] gs hgs e (mem_gmembers gs p hp e hmem) with h1 | h1
        · simp [gmembers] at h1
        · exact h1
      · rw [hlen]
        simpa using groupBy_length events [] gs hgs
      · have hmap : out.map Event.timestamp = (gkeys gs).map some := by
          apply List.ext_get (by simp [hlen, gkeys])
          intro i h1 h2
          have hi : i < gs.length := by simpa [gkeys] using h2
          have ho : i < out.length := by simpa using h1
          have hp := hget i hi ho
          have hmem := pickSurvivor_mem _ _ hp
          have hts2 := (hts (gs.get ⟨i, hi⟩) (List.get_mem gs i hi)).2 _ hmem
          simp only [List.get_eq_getElem, List.getElem_map, gkeys]
          rw [show out[i] = out.get ⟨i, ho⟩ from rfl, hts2]
          rfl
        rw [hmap]
        exact hnodup.map (Option.some_injective String)
  · intro events
    exact ⟨fun e he => (List.mem_filter.mp he).1, List.length_filter_le _ _⟩
  · intro m events
    exact ⟨fun e he => (List.mem_filter.mp he).1, List.length_filter_le _ _⟩
  · intro excl events
    exact ⟨fun e he => (List.mem_filter.mp he).1, List.length_filter_le _ _⟩

/-- Witness: the C10 facts at a concrete two-event input. -/
theorem passes_preserve_C10_witness :
    ((∀ e ∈ [evD120], e ∈ [evD60, evD120]) ∧ ([evD120] : List Event).length ≤
        ([evD60, evD120] : List Event).length ∧ (([evD120] : List Event).map Event.timestamp).Nodup)
    ∧ ((∀ e ∈ removeZeroPass [evD60], e ∈ [evD60]) ∧
        (removeZeroPass [evD60]).length ≤ ([evD60] : List Event).length) :=
  ⟨passes_preserve_C10.1 [evD60, evD120] [evD120] (by decide),
   passes_preserve_C10.2.1 [evD60]⟩

/-! ### C3: the apps grouping is a total partition -/

theorem bump_sum (m : List (String × UsageB)) (k : String) (d : ℚ) :
    ((bump m k d).map (fun p => p.2.duration)).sum =
      (m.map (fun p => p.2.duration)).sum + d := by
  induction m with
  | nil => simp [bump]
  | cons p rest ih =>
    obtain ⟨k2, b⟩ := p
    by_cases hk : k2 = k
    · simp [bump, hk]
      ring
    · simp [bump, hk, ih]
      ring

theorem bump_count (m : List (String × UsageB)) (k : String) (d : ℚ) :
    ((bump m k d).map (fun p => p.2.events)).sum =
      (m.map (fun p => p.2.events)).sum + 1 := by
  induction m with
  | nil => simp [bump]
  | cons p rest ih =>
    obtain ⟨k2, b⟩ := p
    by_cases hk : k2 = k
    · simp [bump, hk]
      ring
    · simp [bump, hk, ih]
      ring

theorem foldl_bump_sum (key : Event → String) (es : List Event)
    (m : List (String × UsageB)) :
    ((es.foldl (fun m e => bump m (key e) e.dur) m).map (fun p => p.2.duration)).sum =
      (m.map (fun p => p.2.duration)).sum + (es.map Event.dur).sum := by
  induction es generalizing m with
  | nil => simp
  | cons e es ih =>
    rw [List.foldl_cons, ih (bump m (key e) e.dur), bump_sum]
    simp
    ring

theorem foldl_bump_count (key : Event → String) (es : List Event)
    (m : List (String × UsageB)) :
    ((es.foldl (fun m e => bump m (key e) e.dur) m).map (fun p => p.2.events)).sum =
      (m.map (fun p => p.2.events)).sum + es.length := by
  induction es generalizing m with
  | nil => simp
  | cons e es ih =>
    rw [List.foldl_cons, ih (bump m (key e) e.dur), bump_count]
    simp
    ring

/-- C3: for every event list whose records all carry a 'timestamp' key,
`analyze_events` succeeds and its `apps` grouping is a total partition
of the input: bucket durations sum to the total input duration (missing
durations read as 0, events without `data.app` grouped under 'Unknown')
and bucket counts sum to the number of input events. -/
theorem analyze_partition_C3 (events : List Event)
    (h : ∀ e ∈ events, e.timestamp.isSome) :
    ∃ a, analyze_events events = some a ∧
      (a.apps.map (fun p => p.2.duration)).sum = (events.map Event.dur).sum ∧
      (a.apps.map (fun p => p.2.events)).sum = events.length := by
  cases events with
  | nil => exact ⟨_, rfl, by simp, by simp⟩
  | cons e es =>
    have hsome : (omapM Event.timestamp (e :: es)).isSome :=
      omapM_isSome Event.timestamp (e :: es) h
    obtain ⟨tss, htss⟩ := Option.isSome_iff_exists.mp hsome
    refine ⟨_, by rw [analyze_events, if_neg (by simp), htss]; rfl, ?_, ?_⟩
    · have := foldl_bump_sum appKey (e :: es) []
      simpa using this
    · have := foldl_bump_count appKey (e :: es) []
      simpa using this

/-- Witness: the C3 partition facts at a concrete two-event input. -/
theorem analyze_partition_C3_witness :
    ∃ a, analyze_events [evX1, evX2] = some a ∧
      (a.apps.map (fun p => p.2.duration)).sum = ([evX1, evX2].map Event.dur).sum ∧
      (a.apps.map (fun p => p.2.events)).sum = ([evX1, evX2] : List Event).length :=
  analyze_partition_C3 [evX1, evX2] (by decide)

/-! ### C1: the merge pass matches its specification -/

theorem mergeLoop_acc (rest : List (Event × ParsedTS)) (current : Event)
    (acc : List Event) (g : ℤ) :
    mergeLoop current rest acc g =
      (mergeLoop current rest [] g).map (fun l => acc ++ l) := by
  induction rest generalizing current acc with
  | nil => simp [mergeLoop]
  | cons x rest2 ih =>
    obtain ⟨nextE, nextTS⟩ := x
    cases hp : parseEvt current with
    | none => simp [mergeLoop, hp]
    | some curTS =>
      simp only [mergeLoop, hp, Option.pure_def, Option.bind_eq_bind, Option.some_bind]
      by_cases hc : current.app = nextE.app ∧
          0 ≤ nextTS.instant - (curTS.instant + microOfSeconds current.dur) ∧
          nextTS.instant - (curTS.instant + microOfSeconds current.dur) ≤ g * 1000000
      · rw [if_pos hc, if_pos hc]
        by_cases htl : current.title.length < nextE.title.length
        · rw [if_pos htl, if_pos htl]
          cases hd : current.data with
          | none => rfl
          | some d => exact ih _ acc
        · rw [if_neg htl, if_neg htl]
          exact ih _ acc
      · rw [if_neg hc, if_neg hc]
        rw [ih nextE (acc ++ [current]), ih nextE ([] ++ [current])]
        cases mergeLoop nextE rest2 [] g with
        | none => rfl
        | some l => simp

theorem mergeLoop_spec (rest : List (Event × ParsedTS)) (current : Event)
    (curTS : ParsedTS) (g : ℤ) (out : List Event)
    (hcur : parseEvt current = some curTS)
    (hrest : ∀ x ∈ rest, parseEvt x.1 = some x.2)
    (h : mergeLoop current rest [] g = some out) :
    out = mergeSpecWalk current curTS rest g := by
  induction rest generalizing current curTS out with
  | nil =>
    simp [mergeLoop] at h
    subst h
    rfl
  | cons x rest2 ih =>
    obtain ⟨nextE, nextTS⟩ := x
    rw [mergeLoop, hcur] at h
    rw [show ((some curTS >>= fun curTS =>
        if current.app = nextE.app ∧
            0 ≤ nextTS.instant - (curTS.instant + microOfSeconds current.dur) ∧
            nextTS.instant - (curTS.instant + microOfSeconds current.dur) ≤ g * 1000000 then
          if current.title.length < nextE.title.length then
            match current.data with
            | some d =>
              mergeLoop { current with
                duration := some (secondsOfMicro (nextTS.instant + microOfSeconds nextE.dur - curTS.instant)),
                data := some { d with title := some nextE.title } } rest2 [] g
            | none => none
          else
            mergeLoop { current with
              duration := some (secondsOfMicro (nextTS.instant + microOfSeconds nextE.dur - curTS.instant)) }
              rest2 [] g
        else mergeLoop nextE rest2 ([] ++ [current]) g : Option (List Event))) =
      (if current.app = nextE.app ∧
            0 ≤ nextTS.instant - (curTS.instant + microOfSeconds current.dur) ∧
            nextTS.instant - (curTS.instant + microOfSeconds current.dur) ≤ g * 1000000 then
          if current.title.length < nextE.title.length then
            match current.data with
            | some d =>
              mergeLoop { current with
                duration := some (secondsOfMicro (nextTS.instant + microOfSeconds nextE.dur - curTS.instant)),
                data := some { d with title := some nextE.title } } rest2 [] g
            | none => none
          else
            mergeLoop { current with
              duration := some (secondsOfMicro (nextTS.instant + microOfSeconds nextE.dur - curTS.instant)) }
              rest2 [] g
        else mergeLoop nextE rest2 ([] ++ [current]) g) from rfl] at h
    rw [mergeSpecWalk]
    by_cases hc : current.app = nextE.app ∧
        0 ≤ nextTS.instant - (curTS.instant + microOfSeconds current.dur) ∧
        nextTS.instant - (curTS.instant + microOfSeconds current.dur) ≤ g * 1000000
    · rw [if_pos hc] at h
      rw [if_pos hc]
      by_cases htl : current.title.length < nextE.title.length
      · rw [if_pos htl] at h
        rw [if_pos htl]
        cases hd : current.data with
        | none => rw [hd] at h; cases h
        | some d =>
          rw [hd] at h
          exact ih _ _ _ hcur (fun y hy => hrest y (by simp [hy])) h
      · rw [if_neg htl] at h
        rw [if_neg htl]
        exact ih _ _ _ hcur (fun y hy => hrest y (by simp [hy])) h
    · rw [if_neg hc] at h
      rw [if_neg hc]
      rw [mergeLoop_acc rest2 nextE ([] ++ [current]) g] at h
      cases hrec : mergeLoop nextE rest2 [] g with
      | none => rw [hrec] at h; cases h
      | some l =>
        rw [hrec] at h
        simp at h
        subst h
        have hnext : parseEvt nextE = some nextTS := hrest (nextE, nextTS) (by simp)
        rw [ih nextE nextTS l hnext (fun y hy => hrest y (by simp [hy])) hrec]

/-- C1: the merge pass realizes the specification: (1) whenever
`merge_consecutive_events` succeeds, its output is exactly the
specification walk `mergeSpec` — sort ascending by parsed instant, then
fold with the gap window `0 ≤ gap ≤ maxGapSeconds`, the duration
extension `(next.start + next.duration) - current.start` and the
longer-title replacement; (2) two same-app events with strictly negative
gap are never merged; (3) the two app-X events at 10:00:00 (duration 60)
and 10:01:15 (duration 45) with maxGapSeconds 30 merge into a single
event of duration 120. -/
theorem merge_C1 :
    (∀ (events : List Event) (g : ℤ) (out : List Event),
      merge_consecutive_events events g = some out → mergeSpec events g = some out)
    ∧ (∀ (e1 e2 : Event) (g : ℤ) (p1 p2 : ParsedTS),
        parseEvt e1 = some p1 → parseEvt e2 = some p2 → p2.aware = p1.aware →
        p1.instant ≤ p2.instant → e1.app = e2.app →
        p2.instant - (p1.instant + microOfSeconds e1.dur) < 0 →
        merge_consecutive_events [e1, e2] g = some [e1, e2])
    ∧ merge_consecutive_events [evX1, evX2] 30 = some [evXMerged] := by
  refine ⟨?_, ?_, ?_⟩
  · intro events g out h
    cases events with
    | nil =>
      simp [merge_consecutive_events] at h
      subst h
      simp [mergeSpec, omapM, List.insertionSort]
    | cons e es =>
      rw [merge_consecutive_events, if_neg (by simp)] at h
      cases hdec : omapM decorate (e :: es) with
      | none => rw [hdec] at h; cases h
      | some dec =>
        rw [hdec] at h
        simp only [Option.pure_def, Option.bind_eq_bind, Option.some_bind] at h
        obtain ⟨hmap, hall⟩ := decorate_sound _ _ hdec
        rw [mergeSpec, hdec]
        simp only [Option.pure_def, Option.bind_eq_bind, Option.some_bind]
        cases dec with
        | nil => simp at hmap
        | cons d0 dtl =>
          replace h : (if ((d0 :: dtl).all fun x => x.2.aware == d0.2.aware) = true then
              (match List.insertionSort tsLe (d0 :: dtl) with
               | [] => some ([] : List Event)
               | (c, _) :: rest => mergeLoop c rest [] g)
            else none) = some out := h
          by_cases haw : (d0 :: dtl).all (fun x => x.2.aware == d0.2.aware) = true
          · rw [if_pos haw] at h
            cases hsort : List.insertionSort tsLe (d0 :: dtl) with
            | nil =>
              have hperm := List.perm_insertionSort tsLe (d0 :: dtl)
              rw [hsort] at hperm
              exact absurd hperm.symm.eq_nil (List.cons_ne_nil d0 dtl)
            | cons c rest =>
              obtain ⟨c1, c2⟩ := c
              rw [hsort] at h
              replace h : mergeLoop c1 rest [] g = some out := h
              show some (mergeSpecWalk c1 c2 rest g) = some out
              have hmemsort : ∀ x ∈ (c1, c2) :: rest, parseEvt x.1 = some x.2 := by
                intro x hx
                exact hall x ((List.perm_insertionSort tsLe (d0 :: dtl)).subset (hsort ▸ hx))
              rw [mergeLoop_spec rest c1 c2 g out (hmemsort (c1, c2) (by simp))
                (fun y hy => hmemsort y (by simp [hy])) h]
          · rw [if_neg haw] at h
            cases h
  · intro e1 e2 g p1 p2 hp1 hp2 haw hle happ hgap
    rw [merge_consecutive_events, if_neg (by simp)]
    have hdec : omapM decorate [e1, e2] = some [(e1, p1), (e2, p2)] := by
      rw [show ([e1, e2] : List Event) = ([(e1, p1), (e2, p2)].map Prod.fst) from rfl]
      apply decorate_complete
      intro x hx
      rcases List.mem_cons.mp hx with h1 | h1
      · subst h1; exact hp1
      · simp at h1; subst h1; exact hp2
    rw [hdec]
    simp only [Option.pure_def, Option.bind_eq_bind, Option.some_bind]
    rw [if_pos (by simp [haw])]
    have hsort : List.insertionSort tsLe [(e1, p1), (e2, p2)] = [(e1, p1), (e2, p2)] := by
      apply List.Sorted.insertionSort_eq
      simp [List.Sorted, List.pairwise_cons, tsLe, hle]
    rw [hsort]
    show mergeLoop e1 [(e2, p2)] [] g = some [e1, e2]
    rw [mergeLoop, hp1]
    simp only [Option.pure_def, Option.bind_eq_bind, Option.some_bind]
    rw [if_neg (by
      intro hc
      exact absurd hc.2.1 (not_le.mpr hgap))]
    rfl
  · decide

/-- Witness: the C1 refinement applied at the concrete example (via the
example conjunct itself), and the negative-gap fact at the overlapping
pair evX1, evXOverlap (gap -30 seconds). -/
theorem merge_C1_witness :
    mergeSpec [evX1, evX2] 30 = some [evXMerged]
    ∧ merge_consecutive_events [evX1, evXOverlap] 30 = some [evX1, evXOverlap] :=
  ⟨merge_C1.1 [evX1, evX2] 30 [evXMerged] merge_C1.2.2,
   merge_C1.2.1 evX1 evXOverlap 30 tsX1 tsXOverlap (by decide) (by decide) (by decide)
     (by decide) (by decide) (by decide)⟩

/-! ### C5: merging an already-merged sequence is a no-op -/

theorem mergeLoopD_fst (rest : List (Event × ParsedTS)) (current : Event)
    (curTS : ParsedTS) (g : ℤ)
    (hcur : parseEvt current = some curTS)
    (hrest : ∀ x ∈ rest, parseEvt x.1 = some x.2) :
    mergeLoop current rest [] g = (mergeLoopD current curTS rest g).map (List.map Prod.fst) := by
  induction rest generalizing current curTS with
  | nil => simp [mergeLoop, mergeLoopD]
  | cons x rest2 ih =>
    obtain ⟨nextE, nextTS⟩ := x
    simp only [mergeLoop, mergeLoopD, hcur, Option.pure_def, Option.bind_eq_bind,
      Option.some_bind]
    by_cases hc : current.app = nextE.app ∧
        0 ≤ nextTS.instant - (curTS.instant + microOfSeconds current.dur) ∧
        nextTS.instant - (curTS.instant + microOfSeconds current.dur) ≤ g * 1000000
    · rw [if_pos hc, if_pos hc]
      by_cases htl : current.title.length < nextE.title.length
      · rw [if_pos htl, if_pos htl]
        cases hd : current.data with
        | none => rfl
        | some d => exact ih _ curTS hcur (fun y hy => hrest y (by simp [hy]))
      · rw [if_neg htl, if_neg htl]
        exact ih _ curTS hcur (fun y hy => hrest y (by simp [hy]))
    · rw [if_neg hc, if_neg hc]
      have hnext : parseEvt nextE = some nextTS := (hrest (nextE, nextTS) (by simp))
      rw [mergeLoop_acc rest2 nextE ([] ++ [current]) g,
        ih nextE nextTS hnext (fun y hy => hrest y (by simp [hy]))]
      cases mergeLoopD nextE nextTS rest2 g with
      | none => rfl
      | some l => simp

theorem mergeLoopD_facts (rest : List (Event × ParsedTS)) (current : Event)
    (curTS : ParsedTS) (g : ℤ) (dout : List (Event × ParsedTS))
    (hcur : parseEvt current = some curTS)
    (hrest : ∀ x ∈ rest, parseEvt x.1 = some x.2 ∧ x.2.aware = curTS.aware)
    (hpair : List.Pairwise tsLe ((current, curTS) :: rest))
    (h : mergeLoopD current curTS rest g = some dout) :
    (∃ c dtl, dout = (c, curTS) :: dtl ∧ c.app = current.app)
    ∧ (∀ x ∈ dout, parseEvt x.1 = some x.2 ∧ x.2.aware = curTS.aware ∧
        curTS.instant ≤ x.2.instant)
    ∧ List.Chain' (noMergeStep g) dout
    ∧ List.Pairwise tsLe dout := by
  induction rest generalizing current curTS dout with
  | nil =>
    simp only [mergeLoopD, Option.some_inj] at h
    subst h
    refine ⟨⟨current, [], rfl, rfl⟩, ?_, ?_, ?_⟩
    · intro x hx
      simp at hx
      subst hx
      exact ⟨hcur, rfl, le_refl _⟩
    · simp
    · simp
  | cons x rest2 ih =>
    obtain ⟨nextE, nextTS⟩ := x
    rw [mergeLoopD] at h
    have hpairrest : List.Pairwise tsLe ((nextE, nextTS) :: rest2) :=
      (List.pairwise_cons.mp hpair).2
    have hheadle : ∀ y ∈ (nextE, nextTS) :: rest2, tsLe (current, curTS) y :=
      (List.pairwise_cons.mp hpair).1
    by_cases hc : current.app = nextE.app ∧
        0 ≤ nextTS.instant - (curTS.instant + microOfSeconds current.dur) ∧
        nextTS.instant - (curTS.instant + microOfSeconds current.dur) ≤ g * 1000000
    · rw [if_pos hc] at h
      have hrest2 : ∀ y ∈ rest2, parseEvt y.1 = some y.2 ∧ y.2.aware = curTS.aware :=
        fun y hy => hrest y (by simp [hy])
      have hpair2 : ∀ c2 : Event, List.Pairwise tsLe ((c2, curTS) :: rest2) := by
        intro c2
        rw [List.pairwise_cons]
        refine ⟨fun y hy => hheadle y (by simp [hy]), (List.pairwise_cons.mp hpairrest).2⟩
      by_cases htl : current.title.length < nextE.title.length
      · rw [if_pos htl] at h
        cases hd : current.data with
        | none => rw [hd] at h; cases h
        | some d =>
          rw [hd] at h
          replace h : mergeLoopD { current with
              duration := some (secondsOfMicro (nextTS.instant + microOfSeconds nextE.dur - curTS.instant)),
              data := some { d with title := some nextE.title } } curTS rest2 g = some dout := h
          have hcur2 : parseEvt { current with
              duration := some (secondsOfMicro (nextTS.instant + microOfSeconds nextE.dur - curTS.instant)),
              data := some { d with title := some nextE.title } } = some curTS := hcur
          obtain ⟨⟨c, dtl, hdout, happ⟩, hall, hchain, hpw⟩ :=
            ih _ curTS dout hcur2 hrest2 (hpair2 _) h
          refine ⟨⟨c, dtl, hdout, ?_⟩, hall, hchain, hpw⟩
          rw [happ]
          simp [Event.app, hd]
      · rw [if_neg htl] at h
        have hcur2 : parseEvt { current with
            duration := some (secondsOfMicro (nextTS.instant + microOfSeconds nextE.dur - curTS.instant)) } =
            some curTS := hcur
        obtain ⟨⟨c, dtl, hdout, happ⟩, hall, hchain, hpw⟩ :=
          ih _ curTS dout hcur2 hrest2 (hpair2 _) h
        exact ⟨⟨c, dtl, hdout, happ⟩, hall, hchain, hpw⟩
    · rw [if_neg hc] at h
      cases hrec : mergeLoopD nextE nextTS rest2 g with
      | none => rw [hrec] at h; cases h
      | some dout2 =>
        rw [hrec] at h
        simp at h
        subst h
        have hnext := hrest (nextE, nextTS) (by simp)
        have hcurle : curTS.instant ≤ nextTS.instant := hheadle (nextE, nextTS) (by simp)
        obtain ⟨⟨c, dtl, hdout2, happ⟩, hall2, hchain2, hpw2⟩ :=
          ih nextE nextTS dout2 hnext.1
            (fun y hy => ⟨(hrest y (by simp [hy])).1,
              ((hrest y (by simp [hy])).2).trans hnext.2.symm⟩)
            hpairrest hrec
        have hall : ∀ x ∈ (current, curTS) :: dout2,
            parseEvt x.1 = some x.2 ∧ x.2.aware = curTS.aware ∧
            curTS.instant ≤ x.2.instant := by
          intro x hx
          rcases List.mem_cons.mp hx with h1 | h1
          · subst h1
            exact ⟨hcur, rfl, le_refl _⟩
          · obtain ⟨hx1, hx2, hx3⟩ := hall2 x h1
            exact ⟨hx1, hx2.trans hnext.2, hcurle.trans hx3⟩
        refine ⟨⟨current, dout2, rfl, rfl⟩, hall, ?_, ?_⟩
        · rw [hdout2, List.chain'_cons]
          constructor
          · rw [noMergeStep]
            intro hcon
            exact hc ⟨hcon.1.trans happ, hcon.2.1, hcon.2.2⟩
          · rw [← hdout2]
            exact hchain2
        · rw [List.pairwise_cons]
          refine ⟨?_, hpw2⟩
          intro y hy
          obtain ⟨_, _, hy3⟩ := hall2 y hy
          exact le_trans hcurle hy3

theorem mergeLoop_noMerge (rest : List (Event × ParsedTS)) (current : Event)
    (curTS : ParsedTS) (g : ℤ)
    (hcur : parseEvt current = some curTS)
    (hrest : ∀ x ∈ rest, parseEvt x.1 = some x.2)
    (hchain : List.Chain' (noMergeStep g) ((current, curTS) :: rest)) :
    mergeLoop current rest [] g = some (((current, curTS) :: rest).map Prod.fst) := by
  induction rest generalizing current curTS with
  | nil => simp [mergeLoop]
  | cons x rest2 ih =>
    obtain ⟨nextE, nextTS⟩ := x
    have hnm : noMergeStep g (current, curTS) (nextE, nextTS) :=
      (List.chain'_cons.mp hchain).1
    rw [noMergeStep] at hnm
    simp only [mergeLoop, hcur, Option.pure_def, Option.bind_eq_bind, Option.some_bind]
    rw [if_neg hnm]
    have hnext : parseEvt nextE = some nextTS := hrest (nextE, nextTS) (by simp)
    rw [mergeLoop_acc rest2 nextE ([] ++ [current]) g,
      ih nextE nextTS hnext (fun y hy => hrest y (by simp [hy]))
        (List.chain'_cons.mp hchain).2]
    simp

/-- C5: the merge output is a fixed point of the merge pass at the same
gap parameter: whenever `merge_consecutive_events events g` succeeds
with output `out`, running the pass again on `out` succeeds and returns
`out` unchanged.  The output is sorted by instant, all its timestamps
still parse with uniform awareness, and every adjacent pair fails the
merge test (the emission decision that separated them is reproduced
exactly, because an accumulator keeps the timestamp and app of its
first event and its final duration is the one the decision saw). -/
theorem merge_fixed_point_C5 (events out : List Event) (g : ℤ)
    (h : merge_consecutive_events events g = some out) :
    merge_consecutive_events out g = some out := by
  cases events with
  | nil =>
    simp [merge_consecutive_events] at h
    subst h
    simp [merge_consecutive_events]
  | cons e es =>
    rw [merge_consecutive_events, if_neg (by simp)] at h
    cases hdec : omapM decorate (e :: es) with
    | none => rw [hdec] at h; cases h
    | some dec =>
      rw [hdec] at h
      simp only [Option.pure_def, Option.bind_eq_bind, Option.some_bind] at h
      obtain ⟨hmap, hall⟩ := decorate_sound _ _ hdec
      cases dec with
      | nil => simp at hmap
      | cons d0 dtl0 =>
        replace h : (if ((d0 :: dtl0).all fun x => x.2.aware == d0.2.aware) = true then
            (match List.insertionSort tsLe (d0 :: dtl0) with
             | [] => some ([] : List Event)
             | (c, _) :: rest => mergeLoop c rest [] g)
          else none) = some out := h
        by_cases haw : ((d0 :: dtl0).all fun x => x.2.aware == d0.2.aware) = true
        · rw [if_pos haw] at h
          cases hsort : List.insertionSort tsLe (d0 :: dtl0) with
          | nil =>
            have hperm := List.perm_insertionSort tsLe (d0 :: dtl0)
            rw [hsort] at hperm
            exact absurd hperm.symm.eq_nil (List.cons_ne_nil d0 dtl0)
          | cons c0 rest =>
            obtain ⟨c1, c2⟩ := c0
            rw [hsort] at h
            replace h : mergeLoop c1 rest [] g = some out := h
            have hsubset : ∀ x ∈ (c1, c2) :: rest, x ∈ d0 :: dtl0 := by
              intro x hx
              exact (List.perm_insertionSort tsLe (d0 :: dtl0)).subset (hsort ▸ hx)
            have hallS : ∀ x ∈ (c1, c2) :: rest, parseEvt x.1 = some x.2 :=
              fun x hx => hall x (hsubset x hx)
            have hawAll : ∀ x ∈ d0 :: dtl0, x.2.aware = d0.2.aware := by
              intro x hx
              have := List.all_eq_true.mp haw x hx
              exact beq_iff_eq.mp this
            have hawS : ∀ x ∈ (c1, c2) :: rest, x.2.aware = c2.aware := by
              intro x hx
              rw [hawAll x (hsubset x hx)]
              rw [hawAll (c1, c2) (hsubset (c1, c2) (by simp))]
            have hpairS : List.Pairwise tsLe ((c1, c2) :: rest) := by
              have := List.sorted_insertionSort tsLe (d0 :: dtl0)
              rw [hsort] at this
              exact this
            rw [mergeLoopD_fst rest c1 c2 g (hallS (c1, c2) (by simp))
              (fun y hy => hallS y (by simp [hy]))] at h
            cases hD : mergeLoopD c1 c2 rest g with
            | none => rw [hD] at h; cases h
            | some dout =>
              rw [hD] at h
              simp at h
              obtain ⟨⟨c, dtl, hdout, happ⟩, hallD, hchainD, hpwD⟩ :=
                mergeLoopD_facts rest c1 c2 g dout (hallS (c1, c2) (by simp))
                  (fun y hy => ⟨hallS y (by simp [hy]), hawS y (by simp [hy])⟩)
                  hpairS hD
              subst hdout
              subst h
              rw [merge_consecutive_events, if_neg (by simp)]
              have hdecorate : omapM decorate (((c, c2) :: dtl).map Prod.fst) =
                  some ((c, c2) :: dtl) :=
                decorate_complete ((c, c2) :: dtl) (fun x hx => (hallD x hx).1)
              rw [show (((c, c2) :: dtl).map Prod.fst : List Event) =
                c :: dtl.map Prod.fst from rfl] at hdecorate ⊢
              rw [hdecorate]
              simp only [Option.pure_def, Option.bind_eq_bind, Option.some_bind]
              have hawOut : (((c, c2) :: dtl).all fun x => x.2.aware == c2.aware) = true := by
                rw [List.all_eq_true]
                intro x hx
                exact beq_iff_eq.mpr (hallD x hx).2.1
              rw [if_pos hawOut]
              have hsortOut : List.insertionSort tsLe ((c, c2) :: dtl) = (c, c2) :: dtl :=
                List.Sorted.insertionSort_eq hpwD
              rw [hsortOut]
              show mergeLoop c dtl [] g = some (c :: dtl.map Prod.fst)
              rw [mergeLoop_noMerge dtl c c2 g (hallD (c, c2) (by simp)).1
                (fun y hy => (hallD y (by simp [hy])).1) hchainD]
              rfl
        · rw [if_neg haw] at h
          cases h

/-- Witness: the fixed-point fact applied to the concrete merge of the
two app-X events: re-merging the single merged event returns it. -/
theorem merge_fixed_point_C5_witness :
    merge_consecutive_events [evXMerged] 30 = some [evXMerged] :=
  merge_fixed_point_C5 [evX1, evX2] [evXMerged] 30 (by decide)

/-! ### C9: the merge pass copies only the top level -/

theorem take_set_of_le (l : List α) (i : ℕ) (a : α) (n : ℕ) (hn : n ≤ i) :
    (l.set i a).take n = l.take n := by
  induction l generalizing i n with
  | nil => simp
  | cons x xs ih =>
    cases i with
    | zero =>
      cases n with
      | zero => simp
      | succ m => omega
    | succ j =>
      cases n with
      | zero => simp
      | succ m =>
        simp only [List.set_cons_succ, List.take_succ_cons]
        rw [ih j m (by omega)]

theorem mergeHLoop_frame (rest : List (ℕ × ParsedTS)) (hp : PyHeap) (curRef : ℕ)
    (curTS : ParsedTS) (acc : List ℕ) (g : ℤ) (hp2 : PyHeap) (out : List ℕ) (n : ℕ)
    (hn : n ≤ hp.events.length) (hcr : n ≤ curRef)
    (h : mergeHLoop hp curRef curTS rest acc g = some (hp2, out)) :
    hp2.events.take n = hp.events.take n ∧ hp2.datas.length = hp.datas.length := by
  induction rest generalizing hp curRef curTS acc with
  | nil =>
    simp only [mergeHLoop, Option.some_inj, Prod.mk.injEq] at h
    rw [← h.1]
    exact ⟨rfl, rfl⟩
  | cons x rest2 ih =>
    obtain ⟨r, p⟩ := x
    rw [mergeHLoop] at h
    cases hc : hp.events[curRef]? with
    | none => rw [hc] at h; simp at h
    | some cur =>
      rw [hc] at h
      simp only [Option.pure_def, Option.bind_eq_bind, Option.some_bind] at h
      cases hne : hp.events[r]? with
      | none => rw [hne] at h; simp at h
      | some nextE =>
        rw [hne] at h
        simp only [Option.some_bind] at h
        cases hcd : getData hp cur.dataRef with
        | none => rw [hcd] at h; simp at h
        | some curD =>
          rw [hcd] at h
          simp only [Option.some_bind] at h
          cases hnd : getData hp nextE.dataRef with
          | none => rw [hnd] at h; simp at h
          | some nextD =>
            rw [hnd] at h
            simp only [Option.some_bind] at h
            by_cases hcnd : curD.bind EventData.app = nextD.bind EventData.app ∧
                0 ≤ p.instant - (curTS.instant + microOfSeconds (cur.duration.getD 0)) ∧
                p.instant - (curTS.instant + microOfSeconds (cur.duration.getD 0)) ≤ g * 1000000
            · rw [if_pos hcnd] at h
              by_cases htl : ((curD.bind EventData.title).getD "").length <
                  ((nextD.bind EventData.title).getD "").length
              · rw [if_pos htl] at h
                cases hdr : cur.dataRef with
                | none =>
                  rw [hdr] at h
                  cases hcD : curD with
                  | none => rw [hcD] at h; cases h
                  | some d => rw [hcD] at h; cases h
                | some di =>
                  rw [hdr] at h
                  cases hcD : curD with
                  | none => rw [hcD] at h; cases h
                  | some d =>
                    rw [hcD] at h
                    replace h : mergeHLoop
                        { events := hp.events.set curRef
                            ({ cur with
                              duration := some (secondsOfMicro
                                (p.instant + microOfSeconds (nextE.duration.getD 0) - curTS.instant)),
                              dataRef := some di }),
                          datas := hp.datas.set di
                            ({ d with title := some ((nextD.bind EventData.title).getD "") }) }
                        curRef curTS rest2 acc g = some (hp2, out) := h
                    obtain ⟨h1, h2⟩ := ih _ curRef curTS acc
                      (by simpa using hn) hcr h
                    simp only [List.length_set] at h2
                    refine ⟨?_, h2⟩
                    rw [h1]
                    exact take_set_of_le hp.events curRef _ n hcr
              · rw [if_neg htl] at h
                replace h : mergeHLoop
                    ⟨hp.events.set curRef
                      ({ cur with duration := some (secondsOfMicro
                        (p.instant + microOfSeconds (nextE.duration.getD 0) - curTS.instant)) }),
                     hp.datas⟩
                    curRef curTS rest2 acc g = some (hp2, out) := h
                obtain ⟨h1, h2⟩ := ih _ curRef curTS acc (by simpa using hn) hcr h
                refine ⟨?_, h2⟩
                rw [h1]
                exact take_set_of_le hp.events curRef _ n hcr
            · rw [if_neg hcnd] at h
              obtain ⟨h1, h2⟩ := ih ({ hp with events := hp.events ++ [nextE] })
                hp.events.length p (acc ++ [curRef])
                (by simp; omega) hn h
              refine ⟨?_, h2⟩
              rw [h1]
              exact List.take_append_of_le_length hn

/-- C9: `merge_consecutive_events` copies only the top level of each
accumulator event.  In the heap model: (general part) the run never
mutates any pre-existing event object — every input event's `duration`
(a top-level field) is left untouched, because the duration write lands
on a freshly allocated copy — and allocates no data object, so every
title write lands on a data object the input events share.  (concrete
part) merging the two events of `heapC9` rewrites the title of data
object 0, which input event 0 references, from 't' to 'longer title',
while input event 0 itself still has duration 60 and the output is the
fresh copy at index 2 with the merged duration 120. -/
theorem merge_shallow_copy_C9 :
    (∀ (hp : PyHeap) (refs : List ℕ) (g : ℤ) (hp2 : PyHeap) (out : List ℕ),
      merge_heap hp refs g = some (hp2, out) →
      hp2.events.take hp.events.length = hp.events ∧
      hp2.datas.length = hp.datas.length)
    ∧ heapC9.datas[0]? = some ⟨some ("X"), some ("t"), none, none⟩
    ∧ (merge_heap heapC9 [0, 1] 30).map Prod.snd = some [2]
    ∧ (merge_heap heapC9 [0, 1] 30).map (fun q => q.1.datas[0]?) =
        some (some ⟨some ("X"), some ("longer title"), none, none⟩)
    ∧ (merge_heap heapC9 [0, 1] 30).map (fun q => (q.1.events[0]?).map EventObj.duration) =
        some (some (some 60))
    ∧ (merge_heap heapC9 [0, 1] 30).map (fun q => (q.1.events[2]?).map EventObj.duration) =
        some (some (some 120)) := by
  refine ⟨?_, by decide, by decide, by decide, by decide, by decide⟩
  intro hp refs g hp2 out h
  cases refs with
  | nil =>
    simp [merge_heap] at h
    rw [← h.1]
    exact ⟨List.take_length hp.events, rfl⟩
  | cons r0 rs =>
    rw [merge_heap, if_neg (by simp)] at h
    cases hdec : omapM (fun r => do
        let e ← hp.events[r]?
        let s ← e.timestamp
        let p ← parseTS s
        pure (r, p)) (r0 :: rs) with
    | none => rw [hdec] at h; simp at h
    | some dec =>
      rw [hdec] at h
      simp only [Option.pure_def, Option.bind_eq_bind, Option.some_bind] at h
      cases dec with
      | nil =>
        replace h : some ((hp, []) : PyHeap × List ℕ) = some (hp2, out) := h
        simp only [Option.some_inj, Prod.mk.injEq] at h
        rw [← h.1]
        exact ⟨List.take_length hp.events, rfl⟩
      | cons d0 dtl =>
        replace h : (if ((d0 :: dtl).all fun x => x.2.aware == d0.2.aware) = true then
            (match List.insertionSort (fun a b : ℕ × ParsedTS => a.2.instant ≤ b.2.instant)
                (d0 :: dtl) with
             | [] => some ((hp, []) : PyHeap × List ℕ)
             | (r1, p1) :: rest => do
               let e0 ← hp.events[r1]?
               mergeHLoop { hp with events := hp.events ++ [e0] } hp.events.length p1 rest [] g)
          else none) = some (hp2, out) := h
        by_cases haw : ((d0 :: dtl).all fun x => x.2.aware == d0.2.aware) = true
        · rw [if_pos haw] at h
          cases hsort : List.insertionSort (fun a b : ℕ × ParsedTS => a.2.instant ≤ b.2.instant)
              (d0 :: dtl) with
          | nil =>
            rw [hsort] at h
            replace h : some ((hp, []) : PyHeap × List ℕ) = some (hp2, out) := h
            simp only [Option.some_inj, Prod.mk.injEq] at h
            rw [← h.1]
            exact ⟨List.take_length hp.events, rfl⟩
          | cons c rest =>
            obtain ⟨r1, p1⟩ := c
            rw [hsort] at h
            replace h : ((hp.events[r1]?).bind fun e0 =>
                mergeHLoop { events := hp.events ++ [e0], datas := hp.datas }
                  hp.events.length p1 rest [] g) = some (hp2, out) := h
            cases he0 : hp.events[r1]? with
            | none =>
              rw [he0] at h
              simp at h
            | some e0 =>
              rw [he0] at h
              simp only [Option.some_bind] at h
              replace h : mergeHLoop ({ hp with events := hp.events ++ [e0] })
                  hp.events.length p1 rest [] g = some (hp2, out) := h
              obtain ⟨h1, h2⟩ := mergeHLoop_frame rest ({ hp with events := hp.events ++ [e0] })
                hp.events.length p1 [] g hp2 out hp.events.length
                (by simp) (le_refl _) h
              refine ⟨?_, h2⟩
              rw [h1, List.take_append_of_le_length (le_refl _), List.take_length]
        · rw [if_neg haw] at h
          cases h
